/-
Verification of the sums-of-two-squares program (sums_of_two_squares.py).

The Python source is shallowly embedded below.  Python integers are `ℕ`/`ℤ`,
Python exceptions are modelled by `Except PyErr`, and the lazily consumed
`primerange` generator shared between quadratic-non-residue searches is
modelled by explicitly threading the remaining candidate list through the
computation.  The external number-theory oracles (sympy `factorint`,
`divisors`, `primerange`, exact `sqrt` comparisons) are embedded by their
mathematical specifications:

* `factorint n` is the ascending list of (prime, exponent) pairs of `n`,
  computed here by trial division (`factorList`);
* `divisors n` is `Nat.divisors`;
* `primerange a b` is the ascending list of primes in `[a, b)`; the
  comparisons `q < sqrt x + 1` are exact, i.e. `(q - 1)^2 < x`;
* the loop guard `a >= sqrt(p)` is the exact comparison `p ≤ a * a`
  (sympy `sqrt` is a symbolic exact square root, so comparisons with it
  are exact).
-/
import Mathlib

/-- Exceptions the Python program can raise: `ValueError` (negative input),
`TypeError` (calling `pow` on `None` when the shared candidate generator is
exhausted), `ZeroDivisionError` (computing `a % 0`). -/
inductive PyErr where
  | valueError : PyErr
  | typeError : PyErr
  | zeroDivisionError : PyErr
deriving DecidableEq, Repr

/-- Number of divisors of `n` congruent to `j` mod 4; the Python code builds
the array `d4` with `d4[d % 4] += 1` over `divisors(n)`. -/
def d4count (n j : ℕ) : ℕ := (n.divisors.filter (fun d => d % 4 = j)).card

/-- Embedding of `r_2(n)`: `4 * (d4[1] - d4[3]) if n != 0 else 1`. -/
def r_2 (n : ℕ) : ℤ := if n ≠ 0 then 4 * ((d4count n 1 : ℤ) - (d4count n 3 : ℤ)) else 1

/-- Euler's criterion test used by the non-residue search:
`pow(p % q, (q - 1) // 2) % q == q - 1`. -/
def eulerTestNR (p q : ℕ) : Bool := decide ((p % q) ^ ((q - 1) / 2) % q = q - 1)

/-- Embedding of the `for q in candidates` loop: returns the first candidate
passing the Euler test together with the *remaining* candidates (the shared
generator keeps its position after a `return`), or `none` when the lazy
sequence is exhausted (the Python function then falls through, returning
`None`). -/
def searchQNR (p : ℕ) : List ℕ → Option ℕ × List ℕ
  | [] => (none, [])
  | q :: rest => if eulerTestNR p q then (some q, rest) else searchQNR p rest

/-- Primality test by trial division (used to embed the `primerange` oracle). -/
def isPrimeB (q : ℕ) : Bool := 2 ≤ q && (List.range' 2 (q - 2)).all (fun d => q % d != 0)

/-- Embedding of `primerange(5, sqrt(m) + 1)`: the ascending list of primes
`q` with `5 ≤ q` and `q < sqrt m + 1`, the latter exactly when
`(q - 1)^2 < m`. -/
def candidatesList (m : ℕ) : List ℕ :=
  (List.range' 5 m).filter (fun q => isPrimeB q && decide ((q - 1) ^ 2 < m))

/-- Embedding of `find_quadratic_nonresidue(p, candidates)`.  A `none`
candidates argument makes the function build its own fresh sequence
`primerange(5, sqrt(p) + 1)`.  The returned list is the state of the shared
lazy sequence after the call. -/
def find_quadratic_nonresidue (p : ℕ) (cands : Option (List ℕ)) : Option ℕ × List ℕ :=
  if p % 8 = 5 then (some 2, cands.getD [])
  else if p % 3 = 2 then (some 3, cands.getD [])
  else if p % 8 = 1 then searchQNR p (cands.getD (candidatesList p))
  else (none, cands.getD [])

/-- Embedding of the truncated Euclidean loop
`a, b = p, x; while a >= sqrt(p): a, b = b, a % b`.
The guard `a >= sqrt(p)` is the exact comparison `p ≤ a * a`; a division by
zero (`a % 0` in Python) is modelled by returning `none`. -/
def descendGo (p : ℕ) : ℕ → ℕ → ℕ → Option (ℕ × ℕ)
  | 0, a, b => some (a, b)
  | fuel + 1, a, b =>
    if p ≤ a * a then
      if b = 0 then none
      else descendGo p fuel b (a % b)
    else some (a, b)

/-- Embedding of the full loop.  Since the divisor strictly decreases, a fuel
of `b + 1` always suffices, so `descend` computes exactly the loop's result
(`descendGo` never reaches its dummy fuel-0 case; see
`descend_eq_descendGo`). -/
def descend (p a b : ℕ) : Option (ℕ × ℕ) := descendGo p (b + 1) a b

/-- Sorted pair, embedding Python's `tuple(sorted([x, y]))`. -/
def sortPair (x y : ℕ) : ℕ × ℕ := if x ≤ y then (x, y) else (y, x)

/-- Embedding of `rep_prod(a, b, c, d)`: the Brahmagupta-Fibonacci
composition step, with absolute values, sorting, and pair-level
deduplication. -/
def rep_prod (a b c d : ℤ) : List (ℕ × ℕ) :=
  let s1 := sortPair (a * c + b * d).natAbs (a * d - b * c).natAbs
  let s2 := sortPair (a * c - b * d).natAbs (a * d + b * c).natAbs
  if s1 ≠ s2 then [s1, s2] else [s1]

/-- One pass of the inner loop of `rep_prime_power`: compose every current
representation with the base representation `r0`. -/
def rppStep (r0 : ℕ × ℕ) (l : List (ℕ × ℕ)) : List (ℕ × ℕ) :=
  l.flatMap (fun r => rep_prod (r.1 : ℤ) (r.2 : ℤ) (r0.1 : ℤ) (r0.2 : ℤ))

/-- Embedding of `rep_prime_power(representation_of_p, n)`: starting from
`[r0]`, apply the composition pass `n - 1` times. -/
def rep_prime_power (r0 : ℕ × ℕ) (n : ℕ) : List (ℕ × ℕ) :=
  (rppStep r0)^[n - 1] [r0]

/-- First loop of `sum_of_two_squares`: build the per-prime representation
table `prime_reps`, threading the shared candidate sequence.  Returns
`ok none` for the early `return [0, []]` (a prime `≡ 3 mod 4` with odd
exponent), `error` when the Python code would raise, and otherwise the
factorization entries paired with their representations. -/
def firstPass (cs : List ℕ) : List (ℕ × ℕ) → Except PyErr (Option (List ((ℕ × ℕ) × ℕ × ℕ)))
  | [] => .ok (some [])
  | (p, e) :: rest =>
    if p % 4 = 3 then
      if e % 2 = 1 then .ok none
      else
        match firstPass cs rest with
        | .ok (some t) => .ok (some (((p, e), (0, p ^ (e / 2))) :: t))
        | r => r
    else if p % 4 = 1 then
      match find_quadratic_nonresidue p (some cs) with
      | (none, _) => .error .typeError
      | (some g, cs') =>
        match descend p p (g ^ ((p - 1) / 4) % p) with
        | none => .error .zeroDivisionError
        | some ab =>
          match firstPass cs' rest with
          | .ok (some t) => .ok (some (((p, e), ab) :: t))
          | r => r
    else
      match firstPass cs rest with
      | .ok (some t) => .ok (some (((p, e), (1, 1)) :: t))
      | r => r

/-- Second loop of `sum_of_two_squares`: combine the accumulated
representations with each prime's representations. -/
def secondPass : List ((ℕ × ℕ) × ℕ × ℕ) → List (ℕ × ℕ) → List (ℕ × ℕ)
  | [], reps => reps
  | ((p, e), r0) :: rest, reps =>
    if p % 4 = 3 then
      secondPass rest (reps.flatMap (fun r => rep_prod (r.1 : ℤ) (r.2 : ℤ) (r0.1 : ℤ) (r0.2 : ℤ)))
    else
      let reps_p := rep_prime_power r0 e
      secondPass rest
        (reps.flatMap (fun r1 => reps_p.flatMap (fun r2 =>
          rep_prod (r1.1 : ℤ) (r1.2 : ℤ) (r2.1 : ℤ) (r2.2 : ℤ))))

/-- Lexicographic order on representation pairs (Python tuple order). -/
def pairLE (x y : ℕ × ℕ) : Prop := x.1 < y.1 ∨ (x.1 = y.1 ∧ x.2 ≤ y.2)

instance : DecidableRel pairLE := fun x y => by unfold pairLE; infer_instance

/-- Embedding of `sorted(list(set(reps)))`: remove duplicates and sort
lexicographically. -/
def canonize (l : List (ℕ × ℕ)) : List (ℕ × ℕ) := List.insertionSort pairLE l.dedup

/-- Scan for the least divisor of `n` starting at `d` (with fuel). -/
def minFacGo (n : ℕ) : ℕ → ℕ → ℕ
  | 0, _ => n
  | fuel + 1, d => if n % d = 0 then d else minFacGo n fuel (d + 1)

/-- Least divisor of `n` that is at least 2 (equals `n` when `n` is prime);
trial-division building block for the `factorint` oracle. -/
def minFacB (n : ℕ) : ℕ := minFacGo n n 2

/-- Extract the exponent of `p` in `m` (with fuel): returns
`(multiplicity, m / p ^ multiplicity)`. -/
def divideOut (p : ℕ) : ℕ → ℕ → ℕ × ℕ
  | 0, m => (0, m)
  | fuel + 1, m =>
    if 2 ≤ p ∧ m % p = 0 ∧ m ≠ 0 then
      let r := divideOut p fuel (m / p)
      (r.1 + 1, r.2)
    else (0, m)

/-- Trial-division factorization loop (with fuel). -/
def factorGo : ℕ → ℕ → List (ℕ × ℕ)
  | 0, _ => []
  | fuel + 1, m =>
    if m < 2 then []
    else
      let p := minFacB m
      let r := divideOut p m m
      (p, r.1) :: factorGo fuel r.2

/-- Embedding of the `factorint` oracle: the ascending list of
(prime, exponent) pairs of `n`. -/
def factorList (n : ℕ) : List (ℕ × ℕ) := factorGo n n

/-- Embedding of `sum_of_two_squares(n)` with the shared candidate sequence
(exactly as the Python code behaves). -/
def sum_of_two_squares (n : ℤ) : Except PyErr (ℤ × List (ℕ × ℕ)) :=
  if n < 0 then .error .valueError
  else if n = 0 then .ok (1, [(0, 0)])
  else if n = 1 then .ok (4, [(0, 1)])
  else
    let fac := factorList n.toNat
    let r2v : ℤ := 4 * (fac.map (fun pe => if pe.1 % 4 = 1 then (pe.2 + 1 : ℤ) else 1)).prod
    let m := (fac.map (fun pe => if pe.1 % 8 = 1 then pe.1 else 0)).foldr max 0
    match firstPass (candidatesList m) fac with
    | .error e => .error e
    | .ok none => .ok (0, [])
    | .ok (some tab) => .ok (r2v, canonize (secondPass tab [(0, 1)]))

/-- Variant of the first loop in which every quadratic-non-residue search
uses its own fresh candidate sequence `primerange(5, sqrt(p) + 1)` instead
of the shared one. -/
def firstPassFresh : List (ℕ × ℕ) → Except PyErr (Option (List ((ℕ × ℕ) × ℕ × ℕ)))
  | [] => .ok (some [])
  | (p, e) :: rest =>
    if p % 4 = 3 then
      if e % 2 = 1 then .ok none
      else
        match firstPassFresh rest with
        | .ok (some t) => .ok (some (((p, e), (0, p ^ (e / 2))) :: t))
        | r => r
    else if p % 4 = 1 then
      match find_quadratic_nonresidue p none with
      | (none, _) => .error .typeError
      | (some g, _) =>
        match descend p p (g ^ ((p - 1) / 4) % p) with
        | none => .error .zeroDivisionError
        | some ab =>
          match firstPassFresh rest with
          | .ok (some t) => .ok (some (((p, e), ab) :: t))
          | r => r
    else
      match firstPassFresh rest with
      | .ok (some t) => .ok (some (((p, e), (1, 1)) :: t))
      | r => r

/-- Variant of `sum_of_two_squares` in which each non-residue search uses a
fresh candidate sequence (the refinement described by the specification). -/
def sum_of_two_squares_fresh (n : ℤ) : Except PyErr (ℤ × List (ℕ × ℕ)) :=
  if n < 0 then .error .valueError
  else if n = 0 then .ok (1, [(0, 0)])
  else if n = 1 then .ok (4, [(0, 1)])
  else
    let fac := factorList n.toNat
    let r2v : ℤ := 4 * (fac.map (fun pe => if pe.1 % 4 = 1 then (pe.2 + 1 : ℤ) else 1)).prod
    match firstPassFresh fac with
    | .error e => .error e
    | .ok none => .ok (0, [])
    | .ok (some tab) => .ok (r2v, canonize (secondPass tab [(0, 1)]))

/-- Arithmetic function wrapper for the non-principal character mod 4
(used to analyse the divisor counts d4[1] and d4[3] of `r_2`). -/
def chi4 : ArithmeticFunction ℤ :=
  ⟨fun d => ZMod.χ₄ (d : ZMod 4), by simp [ZMod.χ₄_nat_eq_if_mod_four]⟩

/-- Spec-side definition (C8): the finite set of ordered pairs of integers
(x, y) with x² + y² = n, cut out of the bounding box |x|, |y| ≤ n. -/
def sqPairs (n : ℕ) : Finset (ℤ × ℤ) :=
  (Finset.Icc (-(n : ℤ)) (n : ℤ) ×ˢ Finset.Icc (-(n : ℤ)) (n : ℤ)).filter
    (fun xy => xy.1 ^ 2 + xy.2 ^ 2 = (n : ℤ))

/-- The Gaussian integers of norm n, as the image of `sqPairs n`. -/
def gaussSet (n : ℕ) : Finset GaussianInt :=
  (sqPairs n).image (fun xy => ⟨xy.1, xy.2⟩)

set_option maxHeartbeats 3200000
set_option synthInstance.maxHeartbeats 400000

-- fuel irrelevance for descendGo
theorem descendGo_congr (p : ℕ) :
    ∀ f1 : ℕ, ∀ f2 a b : ℕ, b < f1 → b < f2 → descendGo p f1 a b = descendGo p f2 a b := by
  intro f1
  induction f1 with
  | zero => intro f2 a b h1 _; omega
  | succ f ih =>
    intro f2 a b h1 h2
    match f2, h2 with
    | f2 + 1, h2 =>
      simp only [descendGo]
      by_cases hpa : p ≤ a * a
      · simp only [if_pos hpa]
        by_cases hb : b = 0
        · simp [hb]
        · simp only [if_neg hb]
          exact ih f2 b (a % b) (by have := Nat.mod_lt a (Nat.pos_of_ne_zero hb); omega)
            (by have := Nat.mod_lt a (Nat.pos_of_ne_zero hb); omega)
      · simp [hpa]

-- the unfolding equation of the while loop
theorem descend_unfold (p a b : ℕ) :
    descend p a b =
      if p ≤ a * a then (if b = 0 then none else descend p b (a % b)) else some (a, b) := by
  show descendGo p (b + 1) a b = _
  simp only [descendGo]
  by_cases hpa : p ≤ a * a
  · simp only [if_pos hpa]
    by_cases hb : b = 0
    · simp [hb]
    · simp only [if_neg hb]
      exact descendGo_congr p b (a % b + 1) b (a % b)
        (Nat.mod_lt a (Nat.pos_of_ne_zero hb)) (Nat.lt_succ_self _)
  · simp [hpa]

theorem descend_rep_aux (p : ℕ) (hp : p.Prime) (hp5 : 5 ≤ p) (ξ : ZMod p) (hξ : ξ ^ 2 = -1) :
    ∀ b : ℕ, ∀ a ua ub : ℕ, ∀ e : ZMod p, (e = 1 ∨ e = -1) →
    (a : ZMod p) = e * ua * ξ → (b : ZMod p) = -(e * ub * ξ) →
    a * ub + b * ua = p → Nat.gcd a b = 1 → p ≤ a * a →
    ∃ r s : ℕ, descend p a b = some (r, s) ∧ r * r + s * s = p ∧ s < r := by
  haveI : Fact p.Prime := ⟨hp⟩
  intro b
  induction b using Nat.strong_induction_on with
  | _ b ih =>
    intro a ua ub e he hA hB h1 hg hpa
    have hb : b ≠ 0 := by
      rintro rfl
      rw [Nat.gcd_zero_right] at hg
      subst hg; omega
    have hbpos : 0 < b := Nat.pos_of_ne_zero hb
    have hrlt : a % b < b := Nat.mod_lt a hbpos
    rw [descend_unfold, if_pos hpa, if_neg hb]
    have hdm : b * (a / b) + a % b = a := Nat.div_add_mod a b
    have he2 : e * e = 1 := by rcases he with h | h <;> simp [h]
    -- transported invariants for the next state
    have hA' : ((b : ℕ) : ZMod p) = (-e) * ub * ξ := by rw [hB]; ring
    have hB' : ((a % b : ℕ) : ZMod p) = -((-e) * ((ua + a / b * ub : ℕ) : ZMod p) * ξ) := by
      have hcast : ((b : ℕ) : ZMod p) * (a / b : ℕ) + ((a % b : ℕ) : ZMod p) = a := by
        have h0 := congrArg (fun t : ℕ => (t : ZMod p)) hdm
        push_cast at h0
        linear_combination h0
      have h2 : ((a % b : ℕ) : ZMod p) = (a : ZMod p) - b * (a / b : ℕ) := by
        linear_combination hcast
      rw [h2, hA, hB]
      push_cast
      ring
    have h1' : b * (ua + a / b * ub) + a % b * ub = p := by
      have h3 : b * (ua + a / b * ub) + a % b * ub = a * ub + b * ua := by
        calc b * (ua + a / b * ub) + a % b * ub
            = (b * (a / b) + a % b) * ub + b * ua := by ring
          _ = a * ub + b * ua := by rw [hdm]
      omega
    have hg' : Nat.gcd b (a % b) = 1 := by
      rw [Nat.gcd_comm b (a % b), ← Nat.gcd_rec b a, Nat.gcd_comm b a] at *
      exact hg
    by_cases hpb : p ≤ b * b
    · exact ih (a % b) hrlt b ub (ua + a / b * ub) (-e)
        (by rcases he with h | h <;> simp [h]) hA' hB' h1' hg' hpb
    · -- the loop exits at the next test: descend p b (a % b) = some (b, a % b)
      rw [descend_unfold, if_neg hpb]
      refine ⟨b, a % b, rfl, ?_, hrlt⟩
      have haub : a * ub ≤ p := Nat.le.intro h1
      -- Step A : p divides b^2 + ub^2
      have hdvd : p ∣ b * b + ub * ub := by
        rw [← ZMod.natCast_zmod_eq_zero_iff_dvd]
        push_cast
        rw [hB]
        have h4 : (-(e * (ub : ZMod p) * ξ)) * (-(e * (ub : ZMod p) * ξ)) =
            (e * e) * (ξ ^ 2) * ((ub : ZMod p) * (ub : ZMod p)) := by ring
        rw [h4, he2, hξ]
        ring
      -- Step B : ub^2 ≤ p
      have hub2 : ub * ub ≤ p := by
        have h2 : ub * ub * p ≤ p * p := by
          calc ub * ub * p ≤ ub * ub * (a * a) := Nat.mul_le_mul_left _ hpa
            _ = (a * ub) * (a * ub) := by ring
            _ ≤ p * p := Nat.mul_le_mul haub haub
        exact Nat.le_of_mul_le_mul_right h2 hp.pos
      -- Step C : b^2 + ub^2 = p
      have hkey : b * b + ub * ub = p := by
        rcases hdvd with ⟨k, hk⟩
        have hbb1 : 1 ≤ b * b := Nat.one_le_iff_ne_zero.mpr (by positivity)
        have hbbp : b * b < p := by omega
        have hk1 : k = 1 := by
          rcases Nat.lt_or_ge k 2 with h | h
          · interval_cases k <;> omega
          · exfalso
            have h5 : 2 * p ≤ p * k := by
              calc 2 * p = p * 2 := by ring
                _ ≤ p * k := Nat.mul_le_mul_left _ h
            omega
        rw [hk1, Nat.mul_one] at hk
        exact hk
      -- Step D : gcd b ub = 1
      have hgbu : Nat.gcd b ub = 1 := by
        set g := Nat.gcd b ub with hgdef
        have hg1 : g ∣ b := Nat.gcd_dvd_left _ _
        have hg2 : g ∣ ub := Nat.gcd_dvd_right _ _
        have hgg : g * g ∣ p := by
          rw [← hkey]
          exact Nat.dvd_add (mul_dvd_mul hg1 hg1) (mul_dvd_mul hg2 hg2)
        have hgp : g ∣ p := (Dvd.intro g rfl).trans hgg
        rcases Nat.Prime.eq_one_or_self_of_dvd hp g hgp with h | h
        · exact h
        · exfalso
          rw [h] at hgg
          have := Nat.le_of_dvd hp.pos hgg
          nlinarith [hp.two_le]
      -- Step E : the divisor analysis forces ub = a % b
      have hfinal : ub = a % b := by
        obtain ⟨A, hAdef⟩ : ∃ A : ℤ, (b : ℤ) = A := ⟨_, rfl⟩
        obtain ⟨U, hUdef⟩ : ∃ U : ℤ, (ub : ℤ) = U := ⟨_, rfl⟩
        obtain ⟨R, hRdef⟩ : ∃ R : ℤ, ((a % b : ℕ) : ℤ) = R := ⟨_, rfl⟩
        obtain ⟨Q, hQdef⟩ : ∃ Q : ℤ, ((a / b : ℕ) : ℤ) = Q := ⟨_, rfl⟩
        obtain ⟨W, hWdef⟩ : ∃ W : ℤ, ((ua : ℕ) : ℤ) = W := ⟨_, rfl⟩
        obtain ⟨Z, hZdef⟩ : ∃ Z : ℤ, ((a : ℕ) : ℤ) = Z := ⟨_, rfl⟩
        have hA1 : (1 : ℤ) ≤ A := by rw [← hAdef]; exact_mod_cast hbpos
        have hU0 : (0 : ℤ) ≤ U := by rw [← hUdef]; exact Int.natCast_nonneg ub
        have hR0 : (0 : ℤ) ≤ R := by rw [← hRdef]; exact Int.natCast_nonneg _
        have hQ0 : (0 : ℤ) ≤ Q := by rw [← hQdef]; exact Int.natCast_nonneg _
        have hW0 : (0 : ℤ) ≤ W := by rw [← hWdef]; exact Int.natCast_nonneg _
        have hZ0 : (0 : ℤ) ≤ Z := by rw [← hZdef]; exact Int.natCast_nonneg _
        have hp5Z : (5 : ℤ) ≤ (p : ℤ) := by exact_mod_cast hp5
        have hRA : R < A := by rw [← hRdef, ← hAdef]; exact_mod_cast hrlt
        have hE1 : A * (W + Q * U) + R * U = (p : ℤ) := by
          rw [← hAdef, ← hUdef, ← hRdef, ← hQdef, ← hWdef]; exact_mod_cast h1'
        have hE2 : A * A + U * U = (p : ℤ) := by
          rw [← hAdef, ← hUdef]; exact_mod_cast hkey
        have hqZ : A * Q + R = Z := by
          rw [← hAdef, ← hRdef, ← hQdef, ← hZdef]; exact_mod_cast hdm
        have haaZ : (p : ℤ) ≤ Z * Z := by rw [← hZdef]; exact_mod_cast hpa
        have haUZ : Z * U ≤ (p : ℤ) := by rw [← hZdef, ← hUdef]; exact_mod_cast haub
        have hcop : IsCoprime A U := by
          rw [← hAdef, ← hUdef, Int.isCoprime_iff_gcd_eq_one, Int.gcd_natCast_natCast]
          exact hgbu
        have hfac : A * ((W + Q * U) - A) = (U - R) * U := by linear_combination hE1 - hE2
        have hdvdc : A ∣ (U - R) := hcop.dvd_of_dvd_mul_right ⟨(W + Q * U) - A, hfac.symm⟩
        obtain ⟨c, hc⟩ := hdvdc
        have hA0 : A ≠ 0 := by linarith
        have hVc : (W + Q * U) - A = c * U := by
          apply mul_left_cancel₀ hA0
          rw [hfac, hc]; ring
        rcases lt_trichotomy c 0 with hcneg | hczero | hcpos
        · exfalso
          have h6 : A * c ≤ A * (-1) := by
            apply mul_le_mul_of_nonneg_left (by omega) (by linarith)
          rw [mul_neg_one] at h6
          linarith [hc]
        · rw [hczero, mul_zero] at hc
          have h7 : U = R := by linarith
          rw [← hUdef, ← hRdef] at h7
          exact_mod_cast h7
        · exfalso
          have hc1 : (1 : ℤ) ≤ c := hcpos
          have hAU : A ≤ U := by
            have h8 : A ≤ A * c := le_mul_of_one_le_right (by linarith) hc1
            linarith [hc]
          have huaW : W = A + (c - Q) * U := by linear_combination hVc
          rcases lt_trichotomy c Q with hclt | hceq | hcgt
          · -- c < Q : W = A - (Q - c) U ≥ 0 forces U ≤ A, so U = A and p = 2 A², impossible
            have h9 : (c - Q) * U ≤ (-1) * U := by
              apply mul_le_mul_of_nonneg_right (by omega) hU0
            have h9b : (c - Q) * U ≤ -U := by linarith [h9]
            have hbu : U ≤ A := by linarith [huaW, hW0, h9b]
            have hAeqU : A = U := le_antisymm hAU hbu
            have hpA : (p : ℤ) = 2 * (A * A) := by rw [← hE2, hAeqU]; ring
            have hdvd2 : (2 : ℕ) ∣ p := by
              have h10 : ((2 : ℕ) : ℤ) ∣ ((p : ℕ) : ℤ) := ⟨A * A, by exact_mod_cast hpA⟩
              exact_mod_cast h10
            have := Nat.Prime.eq_one_or_self_of_dvd hp 2 hdvd2
            omega
          · -- c = Q : then U = Z, so p ≤ Z Z = Z U ≤ p, p = Z², impossible for a prime
            have hUZ : U = Z := by
              rw [hceq] at hc
              linarith [hc, hqZ]
            have hZZ : Z * Z = (p : ℤ) := by
              rw [hUZ] at haUZ
              linarith
            have hZnat : (a : ℕ) * a = p := by
              rw [← hZdef] at hZZ
              exact_mod_cast hZZ
            rcases Nat.Prime.eq_one_or_self_of_dvd hp a ⟨a, hZnat.symm⟩ with h | h
            · rw [h] at hZnat; omega
            · rw [h] at hZnat
              have hone : p = 1 := by
                have : p * p = p * 1 := by rw [Nat.mul_one]; exact hZnat
                exact Nat.eq_of_mul_eq_mul_left hp.pos this
              omega
          · -- c > Q : then U ≥ Z + A, so Z U ≥ Z² + Z A > p, contradiction
            have hZ1 : (1 : ℤ) ≤ Z := by
              rcases eq_or_lt_of_le hZ0 with h | h
              · exfalso; rw [← h] at haaZ; simp at haaZ; linarith
              · omega
            have h11 : A * (Q + 1) ≤ A * c := by
              apply mul_le_mul_of_nonneg_left (by omega) (by linarith)
            have h12 : A * (Q + 1) = A * Q + A := by ring
            have hUZ : Z + A ≤ U := by linarith [hc, hqZ, h11, h12]
            have h13 : Z * (Z + A) ≤ Z * U := mul_le_mul_of_nonneg_left hUZ hZ0
            have h14 : Z * (Z + A) = Z * Z + Z * A := by ring
            have h15 : (1 : ℤ) * 1 ≤ Z * A := mul_le_mul hZ1 hA1 (by norm_num) (by linarith)
            linarith
      rw [← hfinal]
      exact hkey

theorem zmod_pow_half_eq_neg_one (p : ℕ) (hp : p.Prime) (hodd : p % 2 = 1) (g : ZMod p)
    (hg : ¬ IsSquare g) : g ^ (p / 2) = -1 := by
  haveI : Fact p.Prime := ⟨hp⟩
  have hg0 : g ≠ 0 := by rintro rfl; exact hg ⟨0, by ring⟩
  have h1 : g ^ (p / 2) ≠ 1 := fun h => hg ((ZMod.euler_criterion p hg0).mpr h)
  have h2 : g ^ (p / 2) * g ^ (p / 2) = 1 := by
    rw [← pow_add]
    have h3 : p / 2 + p / 2 = p - 1 := by omega
    rw [h3]
    exact ZMod.pow_card_sub_one_eq_one hg0
  rcases mul_self_eq_one_iff.mp h2 with h | h
  · exact absurd h h1
  · exact h

theorem seed_sq (p g : ℕ) (hp : p.Prime) (hp4 : p % 4 = 1)
    (hg : ¬ IsSquare ((g : ZMod p))) :
    (((g ^ ((p - 1) / 4) % p : ℕ)) : ZMod p) ^ 2 = -1 := by
  have hodd : p % 2 = 1 := by omega
  rw [ZMod.natCast_mod]
  push_cast
  rw [← pow_mul]
  have h4 : (p - 1) / 4 * 2 = p / 2 := by omega
  rw [h4]
  exact zmod_pow_half_eq_neg_one p hp hodd _ hg

theorem descend_seed (p g : ℕ) (hp : p.Prime) (hp4 : p % 4 = 1)
    (hg : ¬ IsSquare ((g : ZMod p))) :
    ∃ a b : ℕ, descend p p (g ^ ((p - 1) / 4) % p) = some (a, b) ∧
      a * a + b * b = p ∧ b < a := by
  haveI : Fact p.Prime := ⟨hp⟩
  have hp5 : 5 ≤ p := by have := hp.two_le; omega
  have hξ := seed_sq p g hp hp4 hg
  have hxlt : g ^ ((p - 1) / 4) % p < p := Nat.mod_lt _ hp.pos
  have hx0 : g ^ ((p - 1) / 4) % p ≠ 0 := by
    intro h0
    rw [h0] at hξ
    have h1 : ((0 : ℕ) : ZMod p) ^ 2 = (0 : ZMod p) := by push_cast; ring
    rw [h1] at hξ
    have h2 : (1 : ZMod p) = 0 := by linear_combination hξ
    exact one_ne_zero h2
  have hgcd : Nat.gcd p (g ^ ((p - 1) / 4) % p) = 1 := by
    show Nat.Coprime p (g ^ ((p - 1) / 4) % p)
    rw [Nat.Prime.coprime_iff_not_dvd hp]
    intro hdvd
    have := Nat.le_of_dvd (Nat.pos_of_ne_zero hx0) hdvd
    omega
  exact descend_rep_aux p hp hp5 _ hξ (g ^ ((p - 1) / 4) % p) p 0 1 (-1) (Or.inr rfl)
    (by push_cast [ZMod.natCast_self]; ring)
    (by ring)
    (by omega)
    hgcd
    (Nat.le_mul_of_pos_left p hp.pos)

theorem searchQNR_found (p : ℕ) :
    ∀ cs g cs', searchQNR p cs = (some g, cs') → g ∈ cs ∧ eulerTestNR p g = true := by
  intro cs
  induction cs with
  | nil => intro g cs' h; simp [searchQNR] at h
  | cons q rest ih =>
    intro g cs' h
    by_cases ht : eulerTestNR p q
    · rw [searchQNR, if_pos ht] at h
      have h1 : some q = some g := congrArg Prod.fst h
      obtain rfl := Option.some.inj h1
      exact ⟨List.mem_cons_self q rest, ht⟩
    · rw [searchQNR, if_neg ht] at h
      obtain ⟨h1, h2⟩ := ih g cs' h
      exact ⟨List.mem_cons_of_mem q h1, h2⟩

theorem two_qnr (p : ℕ) (hp : p.Prime) (hp8 : p % 8 = 5) :
    ¬ IsSquare (((2 : ℕ) : ZMod p)) := by
  haveI : Fact p.Prime := ⟨hp⟩
  have hp2 : p ≠ 2 := by omega
  intro h
  have h2 : IsSquare ((2 : ZMod p)) := by
    have h3 : ((2 : ℕ) : ZMod p) = (2 : ZMod p) := by push_cast; rfl
    rwa [h3] at h
  rcases (ZMod.exists_sq_eq_two_iff hp2).mp h2 with h | h <;> omega

theorem three_qnr (p : ℕ) (hp : p.Prime) (hp4 : p % 4 = 1) (hp3 : p % 3 = 2) :
    ¬ IsSquare (((3 : ℕ) : ZMod p)) := by
  haveI : Fact p.Prime := ⟨hp⟩
  haveI : Fact (Nat.Prime 3) := ⟨by norm_num⟩
  have h1 : legendreSym 3 ((p : ℕ) : ℤ) = -1 := by
    rw [legendreSym.eq_neg_one_iff]
    have hcast : ((((p : ℕ) : ℤ)) : ZMod 3) = ((p : ℕ) : ZMod 3) := by push_cast; rfl
    rw [hcast, ← ZMod.natCast_mod p 3, hp3]
    decide
  have h3 : legendreSym p (((3 : ℕ)) : ℤ) = -1 := by
    rw [← legendreSym.quadratic_reciprocity_one_mod_four hp4 (by norm_num : (3 : ℕ) ≠ 2)]
    exact h1
  exact (legendreSym.eq_neg_one_iff' p).mp h3

theorem eulerTest_qnr (p q : ℕ) (hp : p.Prime) (hp4 : p % 4 = 1) (hq : q.Prime)
    (hq2 : 2 < q) (ht : eulerTestNR p q = true) : ¬ IsSquare ((q : ZMod p)) := by
  haveI : Fact p.Prime := ⟨hp⟩
  haveI : Fact q.Prime := ⟨hq⟩
  have htest : (p % q) ^ ((q - 1) / 2) % q = q - 1 := by
    simpa [eulerTestNR] using ht
  have hqodd : q % 2 = 1 := by
    rcases hq.eq_two_or_odd with h | h
    · omega
    · exact h
  -- q does not divide p
  have hnd : ¬ q ∣ p := by
    intro hdvd
    have h0 : p % q = 0 := Nat.dvd_iff_mod_eq_zero.mp hdvd
    rw [h0, Nat.zero_pow (by omega : 0 < (q - 1) / 2)] at htest
    simp at htest
    omega
  -- (p : ZMod q) ^ (q / 2) = -1
  have hpow : ((p : ℕ) : ZMod q) ^ (q / 2) = -1 := by
    have h1 : (((p % q) ^ ((q - 1) / 2) % q : ℕ) : ZMod q) = ((q - 1 : ℕ) : ZMod q) := by
      rw [htest]
    rw [ZMod.natCast_mod] at h1
    push_cast at h1
    rw [ZMod.natCast_mod] at h1
    have h2 : ((q - 1 : ℕ) : ZMod q) = -1 := by
      have h3 : ((q - 1 : ℕ) : ZMod q) = ((q : ℕ) : ZMod q) - 1 := by
        push_cast [Nat.cast_sub (by omega : 1 ≤ q)]
        ring
      rw [h3, ZMod.natCast_self]
      ring
    rw [h2] at h1
    have h4 : (q - 1) / 2 = q / 2 := by omega
    rw [h4] at h1
    exact h1
  -- hence the Legendre symbol of p mod q is -1
  have hlq : legendreSym q ((p : ℕ) : ℤ) = -1 := by
    have hne : ((((p : ℕ) : ℤ)) : ZMod q) ≠ 0 := by
      push_cast
      rw [Ne, ZMod.natCast_zmod_eq_zero_iff_dvd]
      exact hnd
    rcases legendreSym.eq_one_or_neg_one q hne with h | h
    · exfalso
      have h5 := legendreSym.eq_pow q ((p : ℕ) : ℤ)
      rw [h] at h5
      push_cast at h5
      rw [hpow] at h5
      have h6 : ((2 : ℕ) : ZMod q) = 0 := by
        push_cast
        linear_combination h5
      rw [ZMod.natCast_zmod_eq_zero_iff_dvd] at h6
      have := Nat.le_of_dvd (by norm_num) h6
      omega
    · exact h
  have h3 : legendreSym p ((q : ℕ) : ℤ) = -1 := by
    rw [← legendreSym.quadratic_reciprocity_one_mod_four hp4 (by omega : q ≠ 2)]
    exact hlq
  exact (legendreSym.eq_neg_one_iff' p).mp h3

theorem isPrimeB_iff (q : ℕ) : isPrimeB q = true ↔ q.Prime := by
  rw [Nat.prime_def_lt]
  unfold isPrimeB
  rw [Bool.and_eq_true, decide_eq_true_eq, List.all_eq_true]
  constructor
  · rintro ⟨h2, hall⟩
    refine ⟨h2, fun m hm hdvd => ?_⟩
    by_contra hm1
    have hm0 : m ≠ 0 := by
      rintro rfl
      rw [Nat.zero_dvd] at hdvd
      omega
    have hmem : m ∈ List.range' 2 (q - 2) := by
      rw [List.mem_range'_1]
      omega
    have hthis := hall m hmem
    rw [bne_iff_ne] at hthis
    exact hthis (Nat.dvd_iff_mod_eq_zero.mp hdvd)
  · rintro ⟨h2, hmin⟩
    refine ⟨h2, fun d hd => ?_⟩
    rw [List.mem_range'_1] at hd
    rw [bne_iff_ne]
    intro h0
    have hdvd : d ∣ q := Nat.dvd_iff_mod_eq_zero.mpr h0
    have := hmin d (by omega) hdvd
    omega

theorem mem_candidatesList {q m : ℕ} :
    q ∈ candidatesList m ↔ 5 ≤ q ∧ q.Prime ∧ (q - 1) ^ 2 < m := by
  unfold candidatesList
  rw [List.mem_filter, List.mem_range'_1, Bool.and_eq_true, decide_eq_true_eq, isPrimeB_iff]
  constructor
  · rintro ⟨⟨h5, _⟩, ⟨hp, hlt⟩⟩
    exact ⟨h5, hp, hlt⟩
  · rintro ⟨h5, hp, hlt⟩
    have hle : q - 1 ≤ (q - 1) ^ 2 := Nat.le_self_pow (by norm_num) _
    exact ⟨⟨h5, by omega⟩, ⟨hp, hlt⟩⟩

theorem fqnr_found_qnr (p g : ℕ) (cands : Option (List ℕ)) (cs' : List ℕ)
    (hp : p.Prime) (hp4 : p % 4 = 1)
    (hcs : ∀ q ∈ cands.getD (candidatesList p), q.Prime ∧ 2 < q)
    (hfound : find_quadratic_nonresidue p cands = (some g, cs')) :
    ¬ IsSquare ((g : ZMod p)) := by
  unfold find_quadratic_nonresidue at hfound
  by_cases h8 : p % 8 = 5
  · rw [if_pos h8] at hfound
    obtain rfl := Option.some.inj (congrArg Prod.fst hfound)
    exact two_qnr p hp h8
  · rw [if_neg h8] at hfound
    by_cases h3 : p % 3 = 2
    · rw [if_pos h3] at hfound
      obtain rfl := Option.some.inj (congrArg Prod.fst hfound)
      exact three_qnr p hp hp4 h3
    · rw [if_neg h3] at hfound
      by_cases h81 : p % 8 = 1
      · rw [if_pos h81] at hfound
        obtain ⟨hmem, ht⟩ := searchQNR_found p _ g _ hfound
        obtain ⟨hq, hq2⟩ := hcs g hmem
        exact eulerTest_qnr p g hp hp4 hq hq2 ht
      · rw [if_neg h81] at hfound
        simp at hfound

theorem eulerTest_of_qnr (p q : ℕ) (hp : p.Prime) (hp4 : p % 4 = 1) (hq : q.Prime)
    (hq2 : 2 < q) (hnr : ¬ IsSquare ((q : ZMod p))) : eulerTestNR p q = true := by
  haveI : Fact p.Prime := ⟨hp⟩
  haveI : Fact q.Prime := ⟨hq⟩
  have hqodd : q % 2 = 1 := by
    rcases hq.eq_two_or_odd with h | h
    · omega
    · exact h
  have h1 : legendreSym p ((q : ℕ) : ℤ) = -1 := (legendreSym.eq_neg_one_iff' p).mpr hnr
  have h2 : legendreSym q ((p : ℕ) : ℤ) = -1 := by
    rw [legendreSym.quadratic_reciprocity_one_mod_four hp4 (by omega : q ≠ 2)]
    exact h1
  have h3 := legendreSym.eq_pow q ((p : ℕ) : ℤ)
  rw [h2] at h3
  unfold eulerTestNR
  rw [decide_eq_true_eq]
  have hL : (((p % q) ^ ((q - 1) / 2) % q : ℕ) : ZMod q) = ((q - 1 : ℕ) : ZMod q) := by
    rw [ZMod.natCast_mod]
    push_cast
    rw [ZMod.natCast_mod]
    have e1 : (q - 1) / 2 = q / 2 := by omega
    rw [e1]
    have h4 : ((p : ℕ) : ZMod q) ^ (q / 2) = -1 := by
      push_cast at h3
      exact h3.symm
    rw [h4]
    have h5 : ((q - 1 : ℕ) : ZMod q) = -1 := by
      push_cast [Nat.cast_sub (by omega : 1 ≤ q)]
      rw [ZMod.natCast_self]
      ring
    rw [h5]
  have hlt1 : (p % q) ^ ((q - 1) / 2) % q < q := Nat.mod_lt _ (by omega)
  have hlt2 : q - 1 < q := by omega
  have hv := congrArg ZMod.val hL
  rw [ZMod.val_cast_of_lt hlt1, ZMod.val_cast_of_lt hlt2] at hv
  exact hv

theorem eulerTest_false_of_square (p q : ℕ) (hp : p.Prime) (hp4 : p % 4 = 1) (hq : q.Prime)
    (hq2 : 2 < q) (hsq : IsSquare ((q : ZMod p))) : eulerTestNR p q = false := by
  by_contra h
  rw [Bool.not_eq_false] at h
  exact eulerTest_qnr p q hp hp4 hq hq2 h hsq

theorem three_qr (p : ℕ) (hp : p.Prime) (hp4 : p % 4 = 1) (hp3 : p % 3 = 1) :
    IsSquare (((3 : ℕ)) : ZMod p) := by
  haveI : Fact p.Prime := ⟨hp⟩
  haveI : Fact (Nat.Prime 3) := ⟨by norm_num⟩
  have hne3 : (((p : ℕ) : ℤ) : ZMod 3) ≠ 0 := by
    push_cast
    rw [Ne, ZMod.natCast_zmod_eq_zero_iff_dvd]
    intro hdvd
    omega
  have h1 : legendreSym 3 ((p : ℕ) : ℤ) = 1 := by
    rw [legendreSym.eq_one_iff 3 hne3]
    have hcast : ((((p : ℕ) : ℤ)) : ZMod 3) = ((p : ℕ) : ZMod 3) := by push_cast; rfl
    rw [hcast, ← ZMod.natCast_mod p 3, hp3]
    decide
  have h2 : legendreSym p (((3 : ℕ)) : ℤ) = 1 := by
    rw [← legendreSym.quadratic_reciprocity_one_mod_four hp4 (by norm_num : (3 : ℕ) ≠ 2)]
    exact h1
  have hcast3 : ((((3 : ℕ) : ℤ)) : ZMod p) = (((3 : ℕ)) : ZMod p) := by push_cast; rfl
  have hne : ((((3 : ℕ) : ℤ)) : ZMod p) ≠ 0 := by
    rw [hcast3, Ne, ZMod.natCast_zmod_eq_zero_iff_dvd]
    intro hdvd
    have hle := Nat.le_of_dvd (by norm_num) hdvd
    have := hp.two_le
    omega
  have hsq := (legendreSym.eq_one_iff p hne).mp h2
  rw [hcast3] at hsq
  exact hsq

theorem searchQNR_finds (p m0 : ℕ) :
    ∀ l : List ℕ, List.Pairwise (· < ·) l → m0 ∈ l →
      eulerTestNR p m0 = true → (∀ q ∈ l, q < m0 → eulerTestNR p q = false) →
      ∃ rest, searchQNR p l = (some m0, rest) := by
  intro l
  induction l with
  | nil => intro _ hmem; cases hmem
  | cons q tl ih =>
    intro hpw hmem htest hfail
    rcases List.mem_cons.mp hmem with rfl | hmem'
    · rw [searchQNR, if_pos htest]
      exact ⟨tl, rfl⟩
    · have hqlt : q < m0 := (List.pairwise_cons.mp hpw).1 m0 hmem'
      rw [searchQNR, if_neg (by rw [hfail q (List.mem_cons_self q tl) hqlt]; simp)]
      exact ih (List.pairwise_cons.mp hpw).2 hmem' htest
        (fun r hr hrlt => hfail r (List.mem_cons_of_mem q hr) hrlt)

theorem candidatesList_pairwise (m : ℕ) : List.Pairwise (· < ·) (candidatesList m) :=
  List.Pairwise.filter _ (List.pairwise_lt_range' 5 m)
theorem least_qnr_facts (p : ℕ) (hp : p.Prime) (hp8 : p % 8 = 1) (hp3 : p % 3 = 1) :
    ∃ m0 : ℕ, m0.Prime ∧ 5 ≤ m0 ∧ (m0 - 1) ^ 2 < p ∧
      ¬ IsSquare ((m0 : ZMod p)) ∧ (∀ k : ℕ, 0 < k → k < m0 → IsSquare ((k : ZMod p))) := by
  haveI : Fact p.Prime := ⟨hp⟩
  have hp25 : 25 ≤ p := by have := hp.two_le; omega
  have hchar : ringChar (ZMod p) ≠ 2 := by
    rw [ZMod.ringChar_zmod_n]
    omega
  obtain ⟨a, ha⟩ := FiniteField.exists_nonsquare hchar
  have ha0 : a ≠ 0 := fun h => ha (h ▸ ⟨0, by ring⟩)
  have hval : ((a.val : ℕ) : ZMod p) = a := by rw [ZMod.natCast_val, ZMod.cast_id]
  have hvalpos : 0 < a.val := by
    rcases Nat.eq_zero_or_pos a.val with h | h
    · exfalso
      apply ha0
      rw [← hval, h, Nat.cast_zero]
    · exact h
  have hex : ∃ m : ℕ, 0 < m ∧ ¬ IsSquare ((m : ZMod p)) :=
    ⟨a.val, hvalpos, by rw [hval]; exact ha⟩
  classical
  obtain ⟨m0, hm0def⟩ : ∃ m, m = Nat.find hex := ⟨_, rfl⟩
  obtain ⟨hm0pos, hm0nsq⟩ : 0 < m0 ∧ ¬ IsSquare ((m0 : ZMod p)) := by
    rw [hm0def]; exact Nat.find_spec hex
  have hmin : ∀ k, 0 < k → k < m0 → IsSquare ((k : ZMod p)) := by
    intro k hk hklt
    by_contra hns
    exact Nat.find_min hex (hm0def ▸ hklt) ⟨hk, hns⟩
  have h1s : IsSquare ((1 : ℕ) : ZMod p) := ⟨1, by push_cast; ring⟩
  have h2s : IsSquare ((2 : ℕ) : ZMod p) := by
    have h := (ZMod.exists_sq_eq_two_iff (p := p) (by omega)).mpr (Or.inl hp8)
    have hc : ((2 : ℕ) : ZMod p) = (2 : ZMod p) := by push_cast; rfl
    rwa [hc]
  have h3s : IsSquare ((3 : ℕ) : ZMod p) := three_qr p hp (by omega) hp3
  have h4s : IsSquare ((4 : ℕ) : ZMod p) := ⟨((2 : ℕ) : ZMod p), by push_cast; ring⟩
  have hm05 : 5 ≤ m0 := by
    by_contra hlt
    push_neg at hlt
    have hcases : m0 = 1 ∨ m0 = 2 ∨ m0 = 3 ∨ m0 = 4 := by omega
    rcases hcases with rfl | rfl | rfl | rfl
    · exact hm0nsq h1s
    · exact hm0nsq h2s
    · exact hm0nsq h3s
    · exact hm0nsq h4s
  have hm0prime : m0.Prime := by
    by_contra hnp
    obtain ⟨d, hdvd, hd2, hdlt⟩ := Nat.exists_dvd_of_not_prime2 (by omega) hnp
    obtain ⟨e, he⟩ := hdvd
    have he0 : e ≠ 0 := by rintro rfl; rw [Nat.mul_zero] at he; omega
    have he1 : e ≠ 1 := by rintro rfl; rw [Nat.mul_one] at he; omega
    have h2e : 2 * e ≤ d * e := Nat.mul_le_mul_right e hd2
    have helt : e < m0 := by omega
    obtain ⟨x, hx⟩ := hmin d (by omega) hdlt
    obtain ⟨y, hy⟩ := hmin e (by omega) helt
    apply hm0nsq
    refine ⟨x * y, ?_⟩
    rw [he]
    push_cast
    rw [hx, hy]
    ring
  have hm0lt : m0 < p := by
    have h6 : m0 ≤ a.val := by rw [hm0def]; exact Nat.find_min' hex ⟨hvalpos, by rw [hval]; exact ha⟩
    have h7 : a.val < p := ZMod.val_lt a
    omega
  have hbound : (m0 - 1) ^ 2 < p := by
    have hm0ndvd : ¬ m0 ∣ p := by
      intro hdvd
      rcases Nat.Prime.eq_one_or_self_of_dvd hp m0 hdvd with h | h
      · omega
      · omega
    have hrndz : p % m0 ≠ 0 := fun h => hm0ndvd (Nat.dvd_of_mod_eq_zero h)
    have hrlt' : p % m0 < m0 := Nat.mod_lt _ (by omega)
    have hdm := Nat.div_add_mod p m0
    have hr1 : 1 ≤ m0 - p % m0 := by omega
    have hrm : m0 - p % m0 < m0 := by omega
    have htm : (p / m0 + 1) * m0 = p + (m0 - p % m0) := by
      have h8 : (p / m0 + 1) * m0 = m0 * (p / m0) + m0 := by ring
      omega
    have hrs : IsSquare (((m0 - p % m0 : ℕ)) : ZMod p) := hmin _ hr1 hrm
    have hcges : ∀ k : ℕ, ((((k : ℕ) : ℤ)) : ZMod p) = ((k : ℕ) : ZMod p) := by
      intro k; push_cast; rfl
    have hrne : ((((m0 - p % m0 : ℕ) : ℤ)) : ZMod p) ≠ 0 := by
      rw [hcges, Ne, ZMod.natCast_zmod_eq_zero_iff_dvd]
      intro hd
      have := Nat.le_of_dvd (by omega) hd
      omega
    have hLr : legendreSym p ((m0 - p % m0 : ℕ) : ℤ) = 1 := by
      rw [legendreSym.eq_one_iff p hrne, hcges]
      exact hrs
    have hLm0 : legendreSym p ((m0 : ℕ) : ℤ) = -1 := (legendreSym.eq_neg_one_iff' p).mpr hm0nsq
    have hLt : legendreSym p ((p / m0 + 1 : ℕ) : ℤ) = -1 := by
      have hmul := legendreSym.mul p ((p / m0 + 1 : ℕ) : ℤ) ((m0 : ℕ) : ℤ)
      have heq2 : legendreSym p (((p / m0 + 1 : ℕ) : ℤ) * ((m0 : ℕ) : ℤ)) =
          legendreSym p ((m0 - p % m0 : ℕ) : ℤ) := by
        rw [legendreSym.mod p (((p / m0 + 1 : ℕ) : ℤ) * ((m0 : ℕ) : ℤ)),
          legendreSym.mod p ((m0 - p % m0 : ℕ) : ℤ)]
        congr 1
        have h9 : ((p / m0 + 1 : ℕ) : ℤ) * ((m0 : ℕ) : ℤ) =
            ((p : ℕ) : ℤ) + ((m0 - p % m0 : ℕ) : ℤ) := by exact_mod_cast htm
        rw [h9, add_comm]
        have h10 : ((m0 - p % m0 : ℕ) : ℤ) + ((p : ℕ) : ℤ) = ((m0 - p % m0 : ℕ) : ℤ) + ((p : ℕ) : ℤ) * 1 := by ring
        rw [h10, Int.add_mul_emod_self_left]
      rw [heq2, hLr, hLm0] at hmul
      linarith
    have htns : ¬ IsSquare (((p / m0 + 1 : ℕ)) : ZMod p) := (legendreSym.eq_neg_one_iff' p).mp hLt
    have htm0 : m0 ≤ p / m0 + 1 := by
      by_contra hlt
      push_neg at hlt
      exact htns (hmin (p / m0 + 1) (Nat.succ_pos _) hlt)
    have hfloor : (m0 - 1) * m0 ≤ p := by
      have h10 : m0 - 1 ≤ p / m0 := by omega
      calc (m0 - 1) * m0 ≤ (p / m0) * m0 := Nat.mul_le_mul_right _ h10
        _ ≤ p := Nat.div_mul_le_self p m0
    have h11 : (m0 - 1) * (m0 - 1) < (m0 - 1) * m0 :=
      mul_lt_mul_of_pos_left (show m0 - 1 < m0 by omega) (show (0 : ℕ) < m0 - 1 by omega)
    calc (m0 - 1) ^ 2 = (m0 - 1) * (m0 - 1) := sq (m0 - 1)
      _ < (m0 - 1) * m0 := h11
      _ ≤ p := hfloor
  exact ⟨m0, hm0prime, hm05, hbound, hm0nsq, hmin⟩

/-- C6: for every prime p ≡ 1 mod 4, find_quadratic_nonresidue(p, None) returns
some g where g is the least quadratic non-residue mod p (g is a non-residue and
every 0 < m < g is a residue); in particular the search branch for p ≡ 1 mod 8
never falls through: the least non-residue m₀ is an odd prime with
(m₀ - 1)² < p, so it lies in primerange(5, sqrt(p) + 1), passes the Euler test,
and every smaller candidate fails it. -/
theorem c6_least_qnr (p : ℕ) (hp : p.Prime) (hp4 : p % 4 = 1) :
    ∃ g : ℕ, (find_quadratic_nonresidue p none).1 = some g ∧
      ¬ IsSquare ((g : ZMod p)) ∧ (∀ m : ℕ, 0 < m → m < g → IsSquare ((m : ZMod p))) := by
  haveI : Fact p.Prime := ⟨hp⟩
  have hp2 : p ≠ 2 := by omega
  have h1s : IsSquare ((1 : ℕ) : ZMod p) := ⟨1, by push_cast; ring⟩
  by_cases h8 : p % 8 = 5
  · refine ⟨2, ?_, two_qnr p hp h8, ?_⟩
    · simp [find_quadratic_nonresidue, h8]
    · intro m hm hmlt
      have hm1 : m = 1 := by omega
      rw [hm1]
      exact h1s
  · have h81 : p % 8 = 1 := by omega
    have h2s : IsSquare ((2 : ℕ) : ZMod p) := by
      have h := (ZMod.exists_sq_eq_two_iff (p := p) hp2).mpr (Or.inl h81)
      have hc : ((2 : ℕ) : ZMod p) = (2 : ZMod p) := by push_cast; rfl
      rwa [hc]
    by_cases h3 : p % 3 = 2
    · refine ⟨3, ?_, three_qnr p hp hp4 h3, ?_⟩
      · simp [find_quadratic_nonresidue, h8, h3]
      · intro m hm hmlt
        have hm12 : m = 1 ∨ m = 2 := by omega
        rcases hm12 with rfl | rfl
        · exact h1s
        · exact h2s
    · have h31 : p % 3 = 1 := by
        have hlt3 : p % 3 = 0 ∨ p % 3 = 1 ∨ p % 3 = 2 := by omega
        rcases hlt3 with h | h | h
        · exfalso
          have hdvd : (3 : ℕ) ∣ p := Nat.dvd_of_mod_eq_zero h
          have := (Nat.prime_dvd_prime_iff_eq (by norm_num) hp).mp hdvd
          omega
        · exact h
        · exact absurd h h3
      obtain ⟨m0, hm0p, hm05, hbound, hm0nsq, hmin⟩ := least_qnr_facts p hp h81 h31
      have hmem : m0 ∈ candidatesList p := mem_candidatesList.mpr ⟨hm05, hm0p, hbound⟩
      have htest : eulerTestNR p m0 = true :=
        eulerTest_of_qnr p m0 hp hp4 hm0p (by omega) hm0nsq
      have hfail : ∀ q ∈ candidatesList p, q < m0 → eulerTestNR p q = false := by
        intro q hq hqlt
        obtain ⟨hq5, hqp, _⟩ := mem_candidatesList.mp hq
        exact eulerTest_false_of_square p q hp hp4 hqp (by omega) (hmin q (by omega) hqlt)
      obtain ⟨rest, hsearch⟩ :=
        searchQNR_finds p m0 (candidatesList p) (candidatesList_pairwise p) hmem htest hfail
      refine ⟨m0, ?_, hm0nsq, hmin⟩
      show (find_quadratic_nonresidue p none).1 = some m0
      unfold find_quadratic_nonresidue
      rw [if_neg h8, if_neg h3, if_pos h81]
      rw [show (none : Option (List ℕ)).getD (candidatesList p) = candidatesList p from rfl]
      rw [hsearch]

theorem c6_witness : ∃ g : ℕ, (find_quadratic_nonresidue 73 none).1 = some g ∧
    ¬ IsSquare ((g : ZMod 73)) ∧ (∀ m : ℕ, 0 < m → m < g → IsSquare ((m : ZMod 73))) :=
  c6_least_qnr 73 (by norm_num) (by norm_num)

/-- C4 (counterexample): for p = 13 the found non-residue is g = 2, the seed is
x = 2^3 mod 13 = 8, and the Euclidean descent stores (a, b) = (3, 2), which
satisfies 3² + 2² = 13 but violates the claimed ordering a ≤ b. -/
theorem c4_stored_pair_not_sorted :
    find_quadratic_nonresidue 13 (some (candidatesList 13)) = (some 2, candidatesList 13) ∧
    descend 13 13 (2 ^ ((13 - 1) / 4) % 13) = some (3, 2) ∧
    3 * 3 + 2 * 2 = 13 ∧ ¬ (3 ≤ 2) := by
  exact ⟨rfl, rfl, rfl, by omega⟩

/-- C4 (amended): the stored pair (a, b) satisfies a² + b² = p and 0 ≤ b ≤ a. -/
theorem c4_prime_rep_amended (p g : ℕ) (cs cs' : List ℕ) (hp : p.Prime) (hp4 : p % 4 = 1)
    (hcs : ∀ q ∈ cs, q.Prime ∧ 2 < q)
    (hfound : find_quadratic_nonresidue p (some cs) = (some g, cs')) :
    ∃ a b : ℕ, descend p p (g ^ ((p - 1) / 4) % p) = some (a, b) ∧
      a * a + b * b = p ∧ b ≤ a := by
  have hqnr : ¬ IsSquare ((g : ZMod p)) :=
    fqnr_found_qnr p g (some cs) cs' hp hp4 (by simpa using hcs) hfound
  obtain ⟨a, b, h1, h2, h3⟩ := descend_seed p g hp hp4 hqnr
  exact ⟨a, b, h1, h2, le_of_lt h3⟩

theorem c4_witness :
    ∃ a b : ℕ, descend 13 13 (2 ^ ((13 - 1) / 4) % 13) = some (a, b) ∧
      a * a + b * b = 13 ∧ b ≤ a :=
  c4_prime_rep_amended 13 2 [] [] (by norm_num) (by norm_num) (by simp) rfl

/-- C10: for every prime p ≡ 1 mod 4 and every seed x = g^((p-1)/4) mod p built
from a quadratic non-residue g of p, the Euclidean descent terminates with a
result (it never reaches a state that would evaluate a modulus with divisor 0,
which the embedding records as `none`). -/
theorem c10_descent_safe (p g : ℕ) (hp : p.Prime) (hp4 : p % 4 = 1)
    (hg : ¬ IsSquare ((g : ZMod p))) :
    ∃ ab : ℕ × ℕ, descend p p (g ^ ((p - 1) / 4) % p) = some ab := by
  obtain ⟨a, b, h1, _, _⟩ := descend_seed p g hp hp4 hg
  exact ⟨(a, b), h1⟩

theorem c10_witness :
    ∃ ab : ℕ × ℕ, descend 13 13 (2 ^ ((13 - 1) / 4) % 13) = some ab :=
  c10_descent_safe 13 2 (by norm_num) (by norm_num) (by decide)

-- C5 support
theorem sortPair_le (u v : ℕ) : (sortPair u v).1 ≤ (sortPair u v).2 := by
  unfold sortPair; split <;> simp_all <;> omega

theorem sortPair_sq (u v : ℕ) : (sortPair u v).1 ^ 2 + (sortPair u v).2 ^ 2 = u ^ 2 + v ^ 2 := by
  unfold sortPair; split <;> simp <;> ring

/-- C5: every pair (x, y) produced by rep_prod is sorted and represents the
product (a² + b²)(c² + d²); the output is the two sorted absolute-value pairs
of the Brahmagupta-Fibonacci identities, deduplicated when they coincide. -/
theorem c5_rep_prod (a b c d : ℤ) :
    (∀ xy ∈ rep_prod a b c d,
      xy.1 ≤ xy.2 ∧ ((xy.1 : ℤ) ^ 2 + (xy.2 : ℤ) ^ 2 = (a ^ 2 + b ^ 2) * (c ^ 2 + d ^ 2))) ∧
    rep_prod a b c d =
      (if sortPair (a * c + b * d).natAbs (a * d - b * c).natAbs ≠
          sortPair (a * c - b * d).natAbs (a * d + b * c).natAbs then
        [sortPair (a * c + b * d).natAbs (a * d - b * c).natAbs,
         sortPair (a * c - b * d).natAbs (a * d + b * c).natAbs]
      else [sortPair (a * c + b * d).natAbs (a * d - b * c).natAbs]) := by
  constructor
  · intro xy hxy
    have hmain : ∀ u v : ℤ, xy = sortPair u.natAbs v.natAbs →
        u ^ 2 + v ^ 2 = (a ^ 2 + b ^ 2) * (c ^ 2 + d ^ 2) →
        xy.1 ≤ xy.2 ∧ ((xy.1 : ℤ) ^ 2 + (xy.2 : ℤ) ^ 2 = (a ^ 2 + b ^ 2) * (c ^ 2 + d ^ 2)) := by
      rintro u v rfl hid
      refine ⟨sortPair_le _ _, ?_⟩
      have h1 := congrArg (fun t : ℕ => (t : ℤ)) (sortPair_sq u.natAbs v.natAbs)
      push_cast [Int.natCast_natAbs] at h1
      rw [sq_abs, sq_abs] at h1
      rw [h1]
      exact hid
    unfold rep_prod at hxy
    by_cases hne : sortPair (a * c + b * d).natAbs (a * d - b * c).natAbs ≠
        sortPair (a * c - b * d).natAbs (a * d + b * c).natAbs
    · rw [if_pos hne] at hxy
      simp only [List.mem_cons, List.not_mem_nil, or_false] at hxy
      rcases hxy with h | h
      · exact hmain _ _ h (by ring)
      · exact hmain _ _ h (by ring)
    · rw [if_neg hne] at hxy
      simp only [List.mem_cons, List.not_mem_nil, or_false] at hxy
      exact hmain _ _ hxy (by ring)
  · rfl

theorem c5_witness :
    (2 ≤ 11 ∧ (((2 : ℕ) : ℤ) ^ 2 + ((11 : ℕ) : ℤ) ^ 2 =
      ((1 : ℤ) ^ 2 + 2 ^ 2) * (3 ^ 2 + 4 ^ 2))) :=
  (c5_rep_prod 1 2 3 4).1 (2, 11) (by decide)

set_option maxRecDepth 1000000

/-- C1: at n = 1401195361 = 73 · 97 · 433 · 457 (four primes ≡ 1 mod 24, all
requiring the Euler-criterion search) the shared candidate sequence
primerange(5, √457 + 1) = [5, 7, 11, 13, 17, 19] is fully consumed by the
searches for 73 (finds 5), 97 (finds 7) and 433 (consumes 11, 13, 17, finds
19); the search for 457 then finds the sequence exhausted, the function
returns None, and pow(None, 114) raises TypeError — so no representation
list is returned at all. -/
theorem c1_crash_no_list : sum_of_two_squares 1401195361 = Except.error PyErr.typeError := rfl

/-- C3: n = 1401195361 · 463 has the prime 463 ≡ 3 mod 4 with odd exponent, so
the claim requires the result (0, []); but 463 is the largest prime factor and
the candidate-exhaustion TypeError at 457 fires first. -/
theorem c3_crash_before_infeasible :
    sum_of_two_squares (1401195361 * 463) = Except.error PyErr.typeError := rfl

/-- C7: sharing the lazily consumed candidate sequence is not behaviour
preserving: at n = 1401195361 the shared-sequence program raises TypeError
while the fresh-sequence variant returns the correct result. -/
theorem c7_shared_vs_fresh :
    sum_of_two_squares 1401195361 = Except.error PyErr.typeError ∧
    sum_of_two_squares_fresh 1401195361 =
      Except.ok (64, [(340, 37431), (969, 37420), (12855, 35156), (13431, 34940),
        (13444, 34935), (17481, 33100), (24356, 28425), (25335, 27556)]) :=
  ⟨rfl, rfl⟩

/-- C9: a negative input raises ValueError as claimed, but the claim that no
exception is raised for n ≥ 0 fails: n = 1401195361 raises TypeError. -/
theorem c9_error_behaviour :
    sum_of_two_squares (-7) = Except.error PyErr.valueError ∧
    sum_of_two_squares 1401195361 = Except.error PyErr.typeError :=
  ⟨rfl, rfl⟩

theorem minFacGo_spec (n : ℕ) :
    ∀ fuel d, 2 ≤ d → d ≤ n → n + 1 ≤ d + fuel →
    (∀ k, 2 ≤ k → k < d → n % k ≠ 0) →
    n % (minFacGo n fuel d) = 0 ∧ 2 ≤ minFacGo n fuel d ∧
      ∀ k, 2 ≤ k → k < minFacGo n fuel d → n % k ≠ 0 := by
  intro fuel
  induction fuel with
  | zero => intro d _ _ _ _; omega
  | succ f ih =>
    intro d h2 hdn hfuel hbelow
    rw [minFacGo]
    by_cases hd : n % d = 0
    · rw [if_pos hd]
      exact ⟨hd, h2, hbelow⟩
    · rw [if_neg hd]
      have hne : d ≠ n := fun h => hd (by rw [h, Nat.mod_self])
      apply ih (d + 1) (by omega) (by omega) (by omega)
      intro k hk2 hklt
      rcases Nat.lt_or_ge k d with h | h
      · exact hbelow k hk2 h
      · have hkd : k = d := by omega
        subst hkd; exact hd

theorem minFacB_eq_minFac (n : ℕ) (hn : 2 ≤ n) : minFacB n = n.minFac := by
  obtain ⟨h1, h2, h3⟩ := minFacGo_spec n n 2 le_rfl hn (by omega) (by omega)
  have hdvd : minFacB n ∣ n := Nat.dvd_of_mod_eq_zero h1
  have hle : n.minFac ≤ minFacB n := Nat.minFac_le_of_dvd h2 hdvd
  have hmfp : n.minFac.Prime := Nat.minFac_prime (by omega)
  have hnot : ¬ (n.minFac < minFacB n) := fun hlt =>
    h3 n.minFac hmfp.two_le hlt (Nat.eq_zero_of_dvd_of_lt (Nat.minFac_dvd n) |> fun _ => by
      exact (Nat.dvd_iff_mod_eq_zero).mp (Nat.minFac_dvd n))
  omega

theorem divideOut_spec (p : ℕ) :
    ∀ fuel m, m ≠ 0 → m ≤ fuel → 2 ≤ p →
    ((divideOut p fuel m).2 ≠ 0 ∧ ¬ p ∣ (divideOut p fuel m).2 ∧
      m = p ^ (divideOut p fuel m).1 * (divideOut p fuel m).2) := by
  intro fuel
  induction fuel with
  | zero => intro m hm hle _; omega
  | succ f ih =>
    intro m hm hle hp
    rw [divideOut]
    by_cases hcond : 2 ≤ p ∧ m % p = 0 ∧ m ≠ 0
    · rw [if_pos hcond]
      have hdvd : p ∣ m := Nat.dvd_of_mod_eq_zero hcond.2.1
      have hple : p ≤ m := Nat.le_of_dvd (Nat.pos_of_ne_zero hm) hdvd
      have hq0 : m / p ≠ 0 := by
        have := Nat.div_pos hple (by omega)
        omega
      have hqlt : m / p < m := Nat.div_lt_self (Nat.pos_of_ne_zero hm) (by omega)
      obtain ⟨ha, hb, hc⟩ := ih (m / p) hq0 (by omega) hp
      refine ⟨ha, hb, ?_⟩
      have hmp : p * (m / p) = m := Nat.mul_div_cancel' hdvd
      calc m = p * (m / p) := hmp.symm
        _ = p * (p ^ (divideOut p f (m / p)).1 * (divideOut p f (m / p)).2) := by rw [← hc]
        _ = p ^ ((divideOut p f (m / p)).1 + 1) * (divideOut p f (m / p)).2 := by ring
    · rw [if_neg hcond]
      refine ⟨hm, ?_, by simp⟩
      intro hdvd
      exact hcond ⟨hp, Nat.dvd_iff_mod_eq_zero.mp hdvd, hm⟩

theorem factorGo_spec :
    ∀ fuel m, 1 ≤ m → m ≤ fuel →
    (((factorGo fuel m).map Prod.fst).Nodup ∧
     (∀ pe ∈ factorGo fuel m, pe.1.Prime ∧ pe.2 = m.factorization pe.1 ∧ pe.1 ∣ m) ∧
     (∀ q : ℕ, q.Prime → q ∣ m → q ∈ (factorGo fuel m).map Prod.fst)) := by
  intro fuel
  induction fuel with
  | zero => intro m h1 h2; omega
  | succ f ih =>
    intro m h1 hle
    by_cases hm1 : m < 2
    · rw [factorGo, if_pos hm1]
      refine ⟨List.nodup_nil, by simp, fun q hq hdvd => ?_⟩
      have hm : m = 1 := by omega
      subst hm
      rw [Nat.dvd_one] at hdvd
      exact absurd (hdvd ▸ hq) Nat.not_prime_one
    · rw [factorGo, if_neg hm1]
      push_neg at hm1
      have hminfac : minFacB m = m.minFac := minFacB_eq_minFac m hm1
      have hp : (minFacB m).Prime := hminfac ▸ Nat.minFac_prime (by omega)
      have hpdvd : minFacB m ∣ m := hminfac ▸ Nat.minFac_dvd m
      have hp2 : 2 ≤ minFacB m := hp.two_le
      obtain ⟨hr0, hrnd, hre⟩ := divideOut_spec (minFacB m) m m (by omega) le_rfl hp2
      set p := minFacB m with hpdef
      set e := (divideOut p m m).1 with hedef
      set r := (divideOut p m m).2 with hrdef
      have he1 : 1 ≤ e := by
        rcases Nat.eq_zero_or_pos e with h | h
        · exfalso
          rw [h, pow_zero, one_mul] at hre
          exact hrnd (hre ▸ hpdvd)
        · exact h
      have hrlt : r < m := by
        have hpe : p ≤ p ^ e := Nat.le_self_pow (by omega) p
        have : p ^ e * r ≥ 2 * r := Nat.mul_le_mul (by omega) le_rfl
        omega
      have hrle : r ≤ f := by omega
      obtain ⟨ihnd, ihmem, ihcomp⟩ := ih r (by omega) hrle
      -- factorization facts
      have hpe0 : p ^ e ≠ 0 := pow_ne_zero e (by omega)
      have hfac : m.factorization = (p ^ e).factorization + r.factorization := by
        rw [hre]; exact Nat.factorization_mul hpe0 hr0
      have hppow : (p ^ e).factorization = Finsupp.single p e := by
        rw [Nat.factorization_pow, Nat.Prime.factorization hp, Finsupp.smul_single,
          smul_eq_mul, mul_one]
      have hfacp : m.factorization p = e := by
        rw [hfac]
        simp [hppow, Finsupp.add_apply, Finsupp.single_apply,
          Nat.factorization_eq_zero_of_not_dvd hrnd]
      have hfacq : ∀ q, q ≠ p → m.factorization q = r.factorization q := by
        intro q hq
        rw [hfac]
        simp [hppow, Finsupp.add_apply, Finsupp.single_apply, if_neg (Ne.symm hq)]
      have hrdvdm : r ∣ m := ⟨p ^ e, by rw [hre]; ring⟩
      have htail_ne : ∀ pe ∈ factorGo f r, pe.1 ≠ p := by
        intro pe hpe heq
        obtain ⟨_, _, hdvd⟩ := ihmem pe hpe
        rw [heq] at hdvd
        exact hrnd hdvd
      refine ⟨?_, ?_, ?_⟩
      · rw [List.map_cons]
        refine List.Nodup.cons ?_ ihnd
        intro hmem
        obtain ⟨pe, hpe, hfst⟩ := List.mem_map.mp hmem
        exact htail_ne pe hpe hfst
      · intro pe hpe
        rcases List.mem_cons.mp hpe with h | h
        · subst h
          exact ⟨hp, hfacp.symm, hpdvd⟩
        · obtain ⟨hq1, hq2, hq3⟩ := ihmem pe h
          exact ⟨hq1, by rw [hq2, hfacq pe.1 (htail_ne pe h)], hq3.trans hrdvdm⟩
      · intro q hq hdvd
        rw [List.map_cons]
        by_cases hqp : q = p
        · subst hqp; exact List.mem_cons_self _ _
        · refine List.mem_cons_of_mem _ ?_
          apply ihcomp q hq
          rw [hre] at hdvd
          rcases (Nat.Prime.dvd_mul hq).mp hdvd with h | h
          · exfalso
            exact hqp (Nat.prime_dvd_prime_iff_eq hq hp |>.mp (hq.dvd_of_dvd_pow h))
          · exact h

theorem factorList_toFinset (n : ℕ) (hn : n ≠ 0) :
    ((factorList n).map Prod.fst).toFinset = n.primeFactors := by
  obtain ⟨hnd, hmem, hcomp⟩ := factorGo_spec n n (by omega) le_rfl
  ext q
  simp only [List.mem_toFinset, Nat.mem_primeFactors]
  constructor
  · intro hq
    obtain ⟨pe, hpe, rfl⟩ := List.mem_map.mp hq
    obtain ⟨h1, _, h3⟩ := hmem pe hpe
    exact ⟨h1, h3, hn⟩
  · rintro ⟨h1, h2, _⟩
    exact hcomp q h1 h2

theorem factorList_prod {M : Type} [CommMonoid M] (n : ℕ) (hn : n ≠ 0) (g : ℕ × ℕ → M) :
    ((factorList n).map g).prod = ∏ p ∈ n.primeFactors, g (p, n.factorization p) := by
  obtain ⟨hnd, hmem, hcomp⟩ := factorGo_spec n n (by omega) le_rfl
  have h1 : (factorList n).map g =
      ((factorList n).map Prod.fst).map (fun p => g (p, n.factorization p)) := by
    rw [List.map_map]
    apply List.map_congr_left
    intro pe hpe
    obtain ⟨_, h2, _⟩ := hmem pe hpe
    show g pe = g (pe.1, n.factorization pe.1)
    rw [← h2]
  have hnd2 : ((factorList n).map Prod.fst).Nodup := hnd
  rw [h1, ← List.prod_toFinset _ hnd2, factorList_toFinset n hn]

theorem factorList_ne_nil (n : ℕ) (hn : 2 ≤ n) : factorList n ≠ [] := by
  obtain ⟨_, _, hcomp⟩ := factorGo_spec n n (by omega) le_rfl
  intro hnil
  have := hcomp n.minFac (Nat.minFac_prime (by omega)) (Nat.minFac_dvd n)
  rw [show factorList n = factorGo n n from rfl] at hnil
  rw [hnil] at this
  simp at this


theorem chi4_apply (d : ℕ) : chi4 d = ZMod.χ₄ (d : ZMod 4) := rfl

theorem chi4_mult : chi4.IsMultiplicative := by
  refine ⟨?_, fun {m n} _ => ?_⟩
  · show ZMod.χ₄ ((1 : ℕ) : ZMod 4) = 1
    rw [ZMod.χ₄_nat_eq_if_mod_four]
    norm_num
  · show ZMod.χ₄ (((m * n : ℕ)) : ZMod 4) = ZMod.χ₄ (m : ZMod 4) * ZMod.χ₄ (n : ZMod 4)
    rw [Nat.cast_mul, map_mul]

theorem zeta_chi4_apply (n : ℕ) :
    ((ArithmeticFunction.zeta : ArithmeticFunction ℕ) * chi4 : ArithmeticFunction ℤ) n =
      ∑ d ∈ n.divisors, ZMod.χ₄ (d : ZMod 4) :=
  ArithmeticFunction.coe_zeta_mul_apply

theorem chi4_pow (p j : ℕ) : chi4 (p ^ j) = (chi4 p) ^ j := by
  rw [chi4_apply, chi4_apply, Nat.cast_pow, map_pow]

theorem zeta_chi4_prime_pow (p k : ℕ) (hp : p.Prime) :
    ((ArithmeticFunction.zeta : ArithmeticFunction ℕ) * chi4 : ArithmeticFunction ℤ) (p ^ k) =
      if p % 4 = 1 then (k + 1 : ℤ)
      else if p % 4 = 3 then (if k % 2 = 0 then 1 else 0)
      else 1 := by
  rw [zeta_chi4_apply]
  have hsum : (∑ d ∈ (p ^ k).divisors, ZMod.χ₄ (d : ZMod 4)) =
      ∑ j ∈ Finset.range (k + 1), chi4 (p ^ j) :=
    Nat.sum_divisors_prime_pow hp
  rw [hsum]
  by_cases h1 : p % 4 = 1
  · rw [if_pos h1]
    have hall : ∀ j ∈ Finset.range (k + 1), chi4 (p ^ j) = 1 := by
      intro j _
      rw [chi4_apply, ZMod.χ₄_nat_eq_if_mod_four]
      have hmod : p ^ j % 4 = 1 := by rw [Nat.pow_mod, h1, Nat.one_pow]
      rw [if_neg (by omega), if_pos hmod]
    rw [Finset.sum_congr rfl hall]
    simp
  · rw [if_neg h1]
    by_cases h3 : p % 4 = 3
    · rw [if_pos h3]
      have hall : ∀ j ∈ Finset.range (k + 1), chi4 (p ^ j) = (-1) ^ j := by
        intro j _
        rw [chi4_pow, chi4_apply, ZMod.χ₄_nat_eq_if_mod_four]
        rw [if_neg (by omega), if_neg (by omega)]
      rw [Finset.sum_congr rfl hall, neg_one_geom_sum]
      rcases Nat.even_or_odd (k + 1) with h | h
      · rw [if_pos h]
        have hk : k % 2 = 1 := by
          rcases h with ⟨t, ht⟩
          omega
        rw [hk]
        norm_num
      · rw [if_neg (Nat.odd_iff_not_even.mp h)]
        have hk : k % 2 = 0 := by
          rcases h with ⟨t, ht⟩
          omega
        rw [hk]
        norm_num
    · rw [if_neg h3]
      have hp2 : p % 2 = 0 := by
        rcases hp.eq_two_or_odd with h | h
        · omega
        · omega
      rw [Finset.sum_eq_single_of_mem 0 (Finset.mem_range.mpr (by omega))]
      · rw [pow_zero]
        exact chi4_mult.1
      · intro j _ hj
        rw [chi4_apply, ZMod.χ₄_nat_eq_if_mod_four]
        have hmod : p ^ j % 2 = 0 := by
          rw [Nat.pow_mod, hp2, Nat.zero_pow (by omega : 0 < j)]
        rw [if_pos hmod]

theorem chi4_as_if (d : ℕ) : ZMod.χ₄ (d : ZMod 4) =
    (if d % 4 = 1 then (1 : ℤ) else if d % 4 = 3 then -1 else 0) := by
  rw [ZMod.χ₄_nat_eq_if_mod_four]
  split_ifs <;> omega

theorem sum_chi4_eq_prod (n : ℕ) (hn : n ≠ 0) :
    (∑ d ∈ n.divisors, ZMod.χ₄ (d : ZMod 4)) =
      ∏ p ∈ n.primeFactors,
        (if p % 4 = 1 then (n.factorization p + 1 : ℤ)
         else if p % 4 = 3 then (if n.factorization p % 2 = 0 then 1 else 0)
         else 1) := by
  have hmul : ((ArithmeticFunction.zeta : ArithmeticFunction ℕ) * chi4 :
      ArithmeticFunction ℤ).IsMultiplicative :=
    ArithmeticFunction.IsMultiplicative.mul
      (ArithmeticFunction.isMultiplicative_zeta.natCast) chi4_mult
  have h0 := ArithmeticFunction.IsMultiplicative.multiplicative_factorization _ hmul hn
  rw [← zeta_chi4_apply, h0, Finsupp.prod]
  rw [Nat.support_factorization]
  apply Finset.prod_congr rfl
  intro p hp
  have hpp : p.Prime := Nat.prime_of_mem_primeFactors hp
  rw [zeta_chi4_prime_pow p _ hpp]

theorem r_2_eq_sum (n : ℕ) (hn : n ≠ 0) :
    r_2 n = 4 * ∑ d ∈ n.divisors, ZMod.χ₄ (d : ZMod 4) := by
  unfold r_2 d4count
  rw [if_pos hn]
  congr 1
  rw [Finset.card_filter, Finset.card_filter]
  push_cast
  rw [← Finset.sum_sub_distrib]
  apply Finset.sum_congr rfl
  intro d _
  rw [chi4_as_if]
  split_ifs <;> omega

theorem firstPass_none :
    ∀ (l : List (ℕ × ℕ)) (cs : List ℕ), firstPass cs l = Except.ok none →
      ∃ pe ∈ l, pe.1 % 4 = 3 ∧ pe.2 % 2 = 1 := by
  intro l
  induction l with
  | nil => intro cs h; simp [firstPass] at h
  | cons pe rest ih =>
    intro cs h
    obtain ⟨p, e⟩ := pe
    rw [firstPass] at h
    by_cases h3 : p % 4 = 3
    · rw [if_pos h3] at h
      by_cases hodd : e % 2 = 1
      · exact ⟨(p, e), List.mem_cons_self _ _, h3, hodd⟩
      · rw [if_neg hodd] at h
        rcases hrec : firstPass cs rest with er | ores
        · rw [hrec] at h; cases h
        · rcases ores with _ | t
          · rw [hrec] at h
            obtain ⟨pe', hmem, hcond⟩ := ih cs hrec
            exact ⟨pe', List.mem_cons_of_mem _ hmem, hcond⟩
          · rw [hrec] at h; cases h
    · rw [if_neg h3] at h
      by_cases h1 : p % 4 = 1
      · rw [if_pos h1] at h
        rcases hq : find_quadratic_nonresidue p (some cs) with ⟨og, cs'⟩
        rw [hq] at h
        rcases og with _ | g
        · cases h
        · dsimp only at h
          rcases hd : descend p p (g ^ ((p - 1) / 4) % p) with _ | ab
          · rw [hd] at h; cases h
          · rw [hd] at h
            rcases hrec : firstPass cs' rest with er | ores
            · rw [hrec] at h; cases h
            · rcases ores with _ | t
              · rw [hrec] at h
                obtain ⟨pe', hmem, hcond⟩ := ih cs' hrec
                exact ⟨pe', List.mem_cons_of_mem _ hmem, hcond⟩
              · rw [hrec] at h; cases h
      · rw [if_neg h1] at h
        rcases hrec : firstPass cs rest with er | ores
        · rw [hrec] at h; cases h
        · rcases ores with _ | t
          · rw [hrec] at h
            obtain ⟨pe', hmem, hcond⟩ := ih cs hrec
            exact ⟨pe', List.mem_cons_of_mem _ hmem, hcond⟩
          · rw [hrec] at h; cases h

theorem firstPass_some :
    ∀ (l : List (ℕ × ℕ)) (cs : List ℕ) (tab : List ((ℕ × ℕ) × ℕ × ℕ)),
      firstPass cs l = Except.ok (some tab) →
      ∀ pe ∈ l, pe.1 % 4 = 3 → pe.2 % 2 = 0 := by
  intro l
  induction l with
  | nil => intro cs tab _ pe hmem; cases hmem
  | cons pe0 rest ih =>
    intro cs tab h pe hmem hp3
    obtain ⟨p, e⟩ := pe0
    rw [firstPass] at h
    rcases List.mem_cons.mp hmem with heq | hmem'
    · subst heq
      rw [if_pos hp3] at h
      show e % 2 = 0
      by_cases hodd : e % 2 = 1
      · rw [if_pos hodd] at h; cases h
      · omega
    · by_cases h3 : p % 4 = 3
      · rw [if_pos h3] at h
        by_cases hodd : e % 2 = 1
        · rw [if_pos hodd] at h; cases h
        · rw [if_neg hodd] at h
          rcases hrec : firstPass cs rest with er | ores
          · rw [hrec] at h; cases h
          · rcases ores with _ | t
            · rw [hrec] at h; cases h
            · rw [hrec] at h
              exact ih cs t hrec pe hmem' hp3
      · rw [if_neg h3] at h
        by_cases h1 : p % 4 = 1
        · rw [if_pos h1] at h
          rcases hq : find_quadratic_nonresidue p (some cs) with ⟨og, cs'⟩
          rw [hq] at h
          rcases og with _ | g
          · cases h
          · dsimp only at h
            rcases hd : descend p p (g ^ ((p - 1) / 4) % p) with _ | ab
            · rw [hd] at h; cases h
            · rw [hd] at h
              rcases hrec : firstPass cs' rest with er | ores
              · rw [hrec] at h; cases h
              · rcases ores with _ | t
                · rw [hrec] at h; cases h
                · rw [hrec] at h
                  exact ih cs' t hrec pe hmem' hp3
        · rw [if_neg h1] at h
          rcases hrec : firstPass cs rest with er | ores
          · rw [hrec] at h; cases h
          · rcases ores with _ | t
            · rw [hrec] at h; cases h
            · rw [hrec] at h
              exact ih cs t hrec pe hmem' hp3

/-- C2: whenever the assembler returns a result, its count component equals
the independent closed-form count r_2(n) = 4 (d1(n) - d3(n)) computed from
the divisors (with r_2(0) = 1): the short-circuit 0, the hard-coded cases
for n = 0 and n = 1, and the formula 4 * prod (e_p + 1) over primes
p = 1 mod 4 all agree with r_2. -/
theorem c2_count_eq (n : ℤ) (res : ℤ × List (ℕ × ℕ))
    (h : sum_of_two_squares n = Except.ok res) : res.1 = r_2 n.toNat := by
  unfold sum_of_two_squares at h
  by_cases hneg : n < 0
  · rw [if_pos hneg] at h; cases h
  rw [if_neg hneg] at h
  by_cases h0 : n = 0
  · rw [if_pos h0] at h
    obtain rfl := Except.ok.inj h
    rw [h0]
    decide
  rw [if_neg h0] at h
  by_cases h1 : n = 1
  · rw [if_pos h1] at h
    obtain rfl := Except.ok.inj h
    rw [h1]
    decide
  rw [if_neg h1] at h
  dsimp only at h
  have hN2 : 2 ≤ n.toNat := by omega
  have hN0 : n.toNat ≠ 0 := by omega
  obtain ⟨hnd, hmem, hcomp⟩ := factorGo_spec n.toNat n.toNat (by omega) le_rfl
  rcases hfp : firstPass
      (candidatesList
        ((List.map (fun pe => if pe.1 % 8 = 1 then pe.1 else 0) (factorList n.toNat)).foldr
          max 0))
      (factorList n.toNat) with er | ores
  · rw [hfp] at h; cases h
  · rcases ores with _ | tab
    · rw [hfp] at h
      obtain rfl := Except.ok.inj h
      show (0 : ℤ) = r_2 n.toNat
      obtain ⟨pe, hmempe, hp3, hodd⟩ := firstPass_none _ _ hfp
      obtain ⟨hprime, hfacval, hdvd⟩ := hmem pe hmempe
      have hpf : pe.1 ∈ n.toNat.primeFactors :=
        Nat.mem_primeFactors.mpr ⟨hprime, hdvd, hN0⟩
      rw [r_2_eq_sum _ hN0, sum_chi4_eq_prod _ hN0]
      rw [Finset.prod_eq_zero hpf]
      · ring
      · rw [if_neg (by omega), if_pos hp3, if_neg (by omega)]
    · rw [hfp] at h
      obtain rfl := Except.ok.inj h
      show 4 * ((factorList n.toNat).map
          (fun pe => if pe.1 % 4 = 1 then (pe.2 + 1 : ℤ) else 1)).prod = r_2 n.toNat
      rw [r_2_eq_sum _ hN0, sum_chi4_eq_prod _ hN0]
      rw [factorList_prod _ hN0]
      congr 1
      apply Finset.prod_congr rfl
      intro p hp
      have hprime : p.Prime := Nat.prime_of_mem_primeFactors hp
      by_cases hp1 : p % 4 = 1
      · rw [if_pos hp1, if_pos hp1]
      · rw [if_neg hp1, if_neg hp1]
        by_cases hp3 : p % 4 = 3
        · rw [if_pos hp3]
          -- the exponent is even, else firstPass would have returned the zero result
          have hdvd : p ∣ n.toNat := Nat.dvd_of_mem_primeFactors hp
          have hmemlist := hcomp p hprime hdvd
          obtain ⟨pe, hpe, hfst⟩ := List.mem_map.mp hmemlist
          obtain ⟨_, hfacval, _⟩ := hmem pe hpe
          have heven := firstPass_some _ _ _ hfp pe hpe (by rw [hfst]; exact hp3)
          rw [if_pos (by rw [← hfst, ← hfacval]; omega)]
        · rw [if_neg hp3]

theorem c2_witness : ((12 : ℤ), [((0 : ℕ), (5 : ℕ)), (3, 4)]).1 = r_2 (25 : ℤ).toNat :=
  c2_count_eq 25 (12, [(0, 5), (3, 4)]) (by rfl)

theorem abs_le_of_sq (x y : ℤ) (n : ℕ) (h : x ^ 2 + y ^ 2 = (n : ℤ)) :
    -(n : ℤ) ≤ x ∧ x ≤ (n : ℤ) := by
  have hy : 0 ≤ y ^ 2 := sq_nonneg y
  constructor
  · rcases le_or_lt 0 x with hx | hx
    · have hn : (0 : ℤ) ≤ (n : ℤ) := by positivity
      linarith
    · have h1 : -x ≤ (-x) * (-x) := le_mul_of_one_le_left (by omega) (by omega)
      nlinarith
  · rcases le_or_lt x 0 with hx | hx
    · have hn : (0 : ℤ) ≤ (n : ℤ) := by positivity
      linarith
    · have h1 : x ≤ x * x := le_mul_of_one_le_left (by omega) (by omega)
      nlinarith

theorem mem_sqPairs {n : ℕ} {xy : ℤ × ℤ} :
    xy ∈ sqPairs n ↔ xy.1 ^ 2 + xy.2 ^ 2 = (n : ℤ) := by
  unfold sqPairs
  rw [Finset.mem_filter]
  constructor
  · exact fun h => h.2
  · intro h
    refine ⟨?_, h⟩
    rw [Finset.mem_product, Finset.mem_Icc, Finset.mem_Icc]
    have h1 := abs_le_of_sq xy.1 xy.2 n h
    have h2 := abs_le_of_sq xy.2 xy.1 n (by linarith)
    exact ⟨⟨h1.1, h1.2⟩, ⟨h2.1, h2.2⟩⟩

theorem mem_gaussSet {n : ℕ} {z : GaussianInt} :
    z ∈ gaussSet n ↔ z.norm = (n : ℤ) := by
  unfold gaussSet
  rw [Finset.mem_image]
  constructor
  · rintro ⟨xy, hmem, rfl⟩
    have h := mem_sqPairs.mp hmem
    rw [Zsqrtd.norm_def]
    ring_nf
    ring_nf at h
    linarith
  · intro h
    refine ⟨(z.re, z.im), mem_sqPairs.mpr ?_, rfl⟩
    rw [Zsqrtd.norm_def] at h
    ring_nf at h ⊢
    linarith

theorem gaussSet_card (n : ℕ) : (gaussSet n).card = (sqPairs n).card := by
  unfold gaussSet
  apply Finset.card_image_of_injective
  intro a b hab
  have h1 := congrArg Zsqrtd.re hab
  have h2 := congrArg Zsqrtd.im hab
  exact Prod.ext h1 h2

theorem gi_prime_of_norm_prime (z : GaussianInt) (p : ℕ) (hp : p.Prime)
    (hz : z.norm.natAbs = p) : Prime z := by
  rw [← irreducible_iff_prime]
  constructor
  · intro hu
    rw [← Zsqrtd.norm_eq_one_iff, hz] at hu
    exact hp.ne_one hu
  · intro a b hab
    have hn : p = a.norm.natAbs * b.norm.natAbs := by
      rw [← hz, hab, Zsqrtd.norm_mul, Int.natAbs_mul]
    have hda : a.norm.natAbs ∣ p := ⟨b.norm.natAbs, hn⟩
    rcases hp.eq_one_or_self_of_dvd _ hda with h1 | h1
    · exact Or.inl (Zsqrtd.norm_eq_one_iff.mp h1)
    · have hb1 : b.norm.natAbs = 1 := by
        have hppos : 0 < p := hp.pos
        rw [h1] at hn
        have hme : p * 1 = p * b.norm.natAbs := by rw [Nat.mul_one]; exact hn
        exact (Nat.eq_of_mul_eq_mul_left hppos hme).symm
      exact Or.inr (Zsqrtd.norm_eq_one_iff.mp hb1)

theorem gi_norm_pow (z : GaussianInt) (k : ℕ) : (z ^ k).norm = z.norm ^ k := by
  induction k with
  | zero => simp [Zsqrtd.norm_one]
  | succ k ih => rw [pow_succ, pow_succ, Zsqrtd.norm_mul, ih]

theorem gi_star_dvd {a b : GaussianInt} (h : a ∣ b) : star a ∣ star b := by
  obtain ⟨c, rfl⟩ := h
  exact ⟨star c, by rw [star_mul, mul_comm]⟩

theorem gi_norm_cast_eq_mul_conj (z : GaussianInt) :
    ((z.norm : ℤ) : GaussianInt) = z * star z := Zsqrtd.norm_eq_mul_conj z

theorem lam_facts : ((⟨1, 1⟩ : GaussianInt)).norm = 2 ∧
    (⟨1, 1⟩ : GaussianInt) ≠ 0 ∧
    star (⟨1, 1⟩ : GaussianInt) = ⟨0, -1⟩ * ⟨1, 1⟩ := by
  refine ⟨by decide, by decide, by decide⟩

theorem lam_prime : Prime ((⟨1, 1⟩ : GaussianInt)) :=
  gi_prime_of_norm_prime _ 2 Nat.prime_two (by decide)

theorem lam_dvd_of_two_dvd_norm (z : GaussianInt) (h : (2 : ℤ) ∣ z.norm) :
    (⟨1, 1⟩ : GaussianInt) ∣ z := by
  obtain ⟨k, hk⟩ := h
  have h2 : (2 : GaussianInt) = (⟨1, 1⟩ : GaussianInt) * star (⟨1, 1⟩ : GaussianInt) := by
    decide
  have hdvd : (⟨1, 1⟩ : GaussianInt) ∣ z * star z := by
    rw [← gi_norm_cast_eq_mul_conj, hk]
    push_cast
    rw [h2]
    exact ⟨star (⟨1, 1⟩ : GaussianInt) * (k : GaussianInt), by ring⟩
  rcases lam_prime.2.2 _ _ hdvd with hd | hd
  · exact hd
  · have hd2 : star (⟨1, 1⟩ : GaussianInt) ∣ z := by
      have := gi_star_dvd hd
      rwa [star_star] at this
    refine dvd_trans ?_ hd2
    rw [lam_facts.2.2]
    exact ⟨⟨0, -1⟩, by ring⟩

theorem two_descent (m : ℕ) : ∀ a : ℕ, ∀ z : GaussianInt,
    z.norm = ((2 ^ a * m : ℕ) : ℤ) →
    ∃ w : GaussianInt, z = (⟨1, 1⟩ : GaussianInt) ^ a * w ∧ w.norm = (m : ℤ) := by
  intro a
  induction a with
  | zero => intro z hz; exact ⟨z, by rw [pow_zero, one_mul], by simpa using hz⟩
  | succ a ih =>
    intro z hz
    have h2 : (2 : ℤ) ∣ z.norm := by
      rw [hz]
      push_cast
      exact ⟨2 ^ a * m, by ring⟩
    obtain ⟨w', hw'⟩ := lam_dvd_of_two_dvd_norm z h2
    have hnorm' : w'.norm = ((2 ^ a * m : ℕ) : ℤ) := by
      have hn := congrArg Zsqrtd.norm hw'
      rw [Zsqrtd.norm_mul, lam_facts.1, hz] at hn
      have h3 : ((2 ^ (a + 1) * m : ℕ) : ℤ) = 2 * ((2 ^ a * m : ℕ) : ℤ) := by push_cast; ring
      rw [h3] at hn
      exact (mul_left_cancel₀ (by norm_num : (2 : ℤ) ≠ 0) hn).symm
    obtain ⟨w, hw, hwn⟩ := ih w' hnorm'
    exact ⟨w, by rw [hw', hw, pow_succ]; ring, hwn⟩

theorem peel_two (a m : ℕ) : (gaussSet (2 ^ a * m)).card = (gaussSet m).card := by
  symm
  apply Finset.card_bij (fun w _ => (⟨1, 1⟩ : GaussianInt) ^ a * w)
  · intro w hw
    rw [mem_gaussSet] at hw ⊢
    rw [Zsqrtd.norm_mul, gi_norm_pow, lam_facts.1, hw]
    push_cast
    ring
  · intro w1 h1 w2 h2 heq
    exact mul_left_cancel₀ (pow_ne_zero a lam_facts.2.1) heq
  · intro z hz
    rw [mem_gaussSet] at hz
    obtain ⟨w, hw, hwn⟩ := two_descent m a z hz
    exact ⟨w, mem_gaussSet.mpr hwn, hw.symm⟩

theorem gi_norm_natCast (p : ℕ) : ((p : GaussianInt)).norm = (p : ℤ) * (p : ℤ) := by
  rw [Zsqrtd.norm_def, Zsqrtd.natCast_re, Zsqrtd.natCast_im]
  ring

theorem inert_prime (p : ℕ) (hp : p.Prime) (h3 : p % 4 = 3) : Prime ((p : GaussianInt)) := by
  haveI : Fact p.Prime := ⟨hp⟩
  exact (GaussianInt.prime_iff_mod_four_eq_three_of_nat_prime p).mpr h3

theorem inert_dvd_of_dvd_norm (p : ℕ) (hp : p.Prime) (h3 : p % 4 = 3) (z : GaussianInt)
    (h : ((p : ℤ)) ∣ z.norm) : ((p : GaussianInt)) ∣ z := by
  obtain ⟨k, hk⟩ := h
  have hdvd : ((p : GaussianInt)) ∣ z * star z := by
    rw [← gi_norm_cast_eq_mul_conj, hk]
    push_cast
    exact ⟨(k : GaussianInt), rfl⟩
  rcases (inert_prime p hp h3).2.2 _ _ hdvd with hd | hd
  · exact hd
  · have hd2 := gi_star_dvd hd
    rwa [star_star, star_natCast] at hd2

theorem inert_descent (p m : ℕ) (hp : p.Prime) (h3 : p % 4 = 3) (hm : ¬ p ∣ m) :
    ∀ a : ℕ, ∀ z : GaussianInt, z.norm = ((p ^ a * m : ℕ) : ℤ) →
      a % 2 = 0 ∧ ∃ w : GaussianInt, z = ((p : GaussianInt)) ^ (a / 2) * w ∧ w.norm = (m : ℤ) := by
  intro a
  induction a using Nat.strong_induction_on with
  | _ a ih =>
    intro z hz
    match a with
    | 0 =>
      exact ⟨rfl, z, by rw [pow_zero, one_mul], by simpa using hz⟩
    | a + 1 =>
      have hpdvd : ((p : ℤ)) ∣ z.norm := by
        rw [hz]
        push_cast
        exact ⟨(p : ℤ) ^ a * m, by ring⟩
      obtain ⟨w', hw'⟩ := inert_dvd_of_dvd_norm p hp h3 z hpdvd
      have hn := congrArg Zsqrtd.norm hw'
      rw [Zsqrtd.norm_mul, gi_norm_natCast, hz] at hn
      have hppos : (0 : ℤ) < (p : ℤ) := by exact_mod_cast hp.pos
      match a with
      | 0 =>
        exfalso
        apply hm
        have h4 : ((p : ℤ)) * (m : ℤ) = (p : ℤ) * ((p : ℤ) * w'.norm) := by
          push_cast at hn
          linarith [hn]
        have h5 : (m : ℤ) = (p : ℤ) * w'.norm := mul_left_cancel₀ (by omega) h4
        have h6 : ((p : ℤ)) ∣ (m : ℤ) := ⟨w'.norm, h5⟩
        exact_mod_cast h6
      | a + 1 =>
        have h4 : ((p ^ (a + 2) * m : ℕ) : ℤ) = (p : ℤ) * (p : ℤ) * ((p ^ a * m : ℕ) : ℤ) := by
          push_cast
          ring
        rw [h4] at hn
        have h5 : w'.norm = ((p ^ a * m : ℕ) : ℤ) :=
          (mul_left_cancel₀ (by positivity) hn).symm
        obtain ⟨hpar, w, hw, hwn⟩ := ih a (by omega) w' h5
        refine ⟨by omega, w, ?_, hwn⟩
        rw [hw', hw]
        have h7 : (a + 2) / 2 = a / 2 + 1 := by omega
        rw [h7, pow_succ]
        ring

theorem peel_inert_even (p b m : ℕ) (hp : p.Prime) (h3 : p % 4 = 3) (hm : ¬ p ∣ m) :
    (gaussSet (p ^ (2 * b) * m)).card = (gaussSet m).card := by
  symm
  apply Finset.card_bij (fun w _ => ((p : GaussianInt)) ^ b * w)
  · intro w hw
    rw [mem_gaussSet] at hw ⊢
    rw [Zsqrtd.norm_mul, gi_norm_pow, gi_norm_natCast, hw]
    push_cast
    ring
  · intro w1 h1 w2 h2 heq
    have hpz : ((p : GaussianInt)) ≠ 0 := by
      intro h
      have := congrArg Zsqrtd.re h
      rw [Zsqrtd.natCast_re] at this
      have hp2 := hp.two_le
      simp at this
      omega
    exact mul_left_cancel₀ (pow_ne_zero b hpz) heq
  · intro z hz
    rw [mem_gaussSet] at hz
    obtain ⟨hpar, w, hw, hwn⟩ := inert_descent p m hp h3 hm (2 * b) z hz
    have h7 : 2 * b / 2 = b := by omega
    rw [h7] at hw
    exact ⟨w, mem_gaussSet.mpr hwn, hw.symm⟩

theorem peel_inert_odd (p a m : ℕ) (hp : p.Prime) (h3 : p % 4 = 3) (hm : ¬ p ∣ m)
    (hodd : a % 2 = 1) : (gaussSet (p ^ a * m)).card = 0 := by
  rw [Finset.card_eq_zero]
  rw [Finset.eq_empty_iff_forall_not_mem]
  intro z hz
  rw [mem_gaussSet] at hz
  obtain ⟨hpar, _⟩ := inert_descent p m hp h3 hm a z hz
  omega

theorem gi_norm_dvd {a b : GaussianInt} (h : a ∣ b) : a.norm ∣ b.norm := by
  obtain ⟨c, rfl⟩ := h
  rw [Zsqrtd.norm_mul]
  exact ⟨c.norm, rfl⟩

theorem split_pi (p : ℕ) (hp : p.Prime) (h1 : p % 4 = 1) :
    ∃ π : GaussianInt, π.norm = (p : ℤ) ∧ Prime π ∧ Prime (star π) ∧
      ¬ π ∣ star π ∧ ¬ star π ∣ π := by
  haveI : Fact p.Prime := ⟨hp⟩
  obtain ⟨x, y, hxy⟩ := Nat.Prime.sq_add_sq (p := p) (by omega)
  have hp5 : 5 ≤ p := by
    have h2 := hp.two_le
    rcases Nat.lt_or_ge p 5 with h | h
    · interval_cases p <;> omega
    · exact h
  have hnd : ¬ (⟨(x : ℤ), (y : ℤ)⟩ : GaussianInt) ∣ star ⟨(x : ℤ), (y : ℤ)⟩ := by
    intro hdvd
    have hsum : (⟨(x : ℤ), (y : ℤ)⟩ : GaussianInt) ∣ ⟨2 * (x : ℤ), 0⟩ := by
      have h2 : (⟨2 * (x : ℤ), 0⟩ : GaussianInt) =
          ⟨(x : ℤ), (y : ℤ)⟩ + star ⟨(x : ℤ), (y : ℤ)⟩ := by
        rw [Zsqrtd.star_mk]
        ext
        · rw [Zsqrtd.add_re]
          ring
        · rw [Zsqrtd.add_im]
          ring
      rw [h2]
      exact dvd_add dvd_rfl hdvd
    have hdiff : (⟨(x : ℤ), (y : ℤ)⟩ : GaussianInt) ∣ ⟨0, 2 * (y : ℤ)⟩ := by
      have h2 : (⟨0, 2 * (y : ℤ)⟩ : GaussianInt) =
          ⟨(x : ℤ), (y : ℤ)⟩ - star ⟨(x : ℤ), (y : ℤ)⟩ := by
        rw [Zsqrtd.star_mk]
        ext
        · rw [Zsqrtd.sub_re]
          ring
        · rw [Zsqrtd.sub_im]
          ring
      rw [h2]
      exact dvd_sub dvd_rfl hdvd
    have hnormpi : ((⟨(x : ℤ), (y : ℤ)⟩ : GaussianInt)).norm = ((x ^ 2 + y ^ 2 : ℕ) : ℤ) := by
      rw [Zsqrtd.norm_def]
      push_cast
      ring
    have hn1 : ((p : ℤ)) ∣ 4 * (x : ℤ) ^ 2 := by
      have h3 := gi_norm_dvd hsum
      rw [hnormpi, hxy, Zsqrtd.norm_def] at h3
      have h4 : (2 * (x : ℤ)) * (2 * (x : ℤ)) - (-1) * 0 * 0 = 4 * (x : ℤ) ^ 2 := by ring
      rwa [h4] at h3
    have hn2 : ((p : ℤ)) ∣ 4 * (y : ℤ) ^ 2 := by
      have h3 := gi_norm_dvd hdiff
      rw [hnormpi, hxy, Zsqrtd.norm_def] at h3
      have h4 : (0 : ℤ) * 0 - (-1) * (2 * (y : ℤ)) * (2 * (y : ℤ)) = 4 * (y : ℤ) ^ 2 := by ring
      rwa [h4] at h3
    have hnx : p ∣ 4 * x ^ 2 := by exact_mod_cast hn1
    have hny : p ∣ 4 * y ^ 2 := by exact_mod_cast hn2
    have hdx : p ∣ x := by
      rcases (Nat.Prime.dvd_mul hp).mp hnx with h | h
      · exfalso
        have := Nat.le_of_dvd (by norm_num) h
        omega
      · exact hp.dvd_of_dvd_pow h
    have hdy : p ∣ y := by
      rcases (Nat.Prime.dvd_mul hp).mp hny with h | h
      · exfalso
        have := Nat.le_of_dvd (by norm_num) h
        omega
      · exact hp.dvd_of_dvd_pow h
    obtain ⟨x', rfl⟩ := hdx
    obtain ⟨y', rfl⟩ := hdy
    have key : (p * x') ^ 2 + (p * y') ^ 2 = p ^ 2 * (x' ^ 2 + y' ^ 2) := by ring
    have hsq : p ^ 2 ∣ p := ⟨x' ^ 2 + y' ^ 2, by rw [← key]; exact hxy.symm⟩
    have h5 := Nat.le_of_dvd hp.pos hsq
    nlinarith [hp5]
  refine ⟨⟨(x : ℤ), (y : ℤ)⟩, ?_, ?_, ?_, ?_, ?_⟩
  case _ =>
    rw [Zsqrtd.norm_def]
    push_cast
    nlinarith [hxy]
  case _ =>
    apply gi_prime_of_norm_prime _ p hp
    rw [Zsqrtd.norm_def]
    have h2 : ((x : ℤ)) * (x : ℤ) - (-1) * (y : ℤ) * (y : ℤ) = ((x ^ 2 + y ^ 2 : ℕ) : ℤ) := by
      push_cast
      ring
    rw [h2, hxy]
    exact Int.natAbs_ofNat p
  case _ =>
    apply gi_prime_of_norm_prime _ p hp
    rw [Zsqrtd.norm_conj, Zsqrtd.norm_def]
    have h2 : ((x : ℤ)) * (x : ℤ) - (-1) * (y : ℤ) * (y : ℤ) = ((x ^ 2 + y ^ 2 : ℕ) : ℤ) := by
      push_cast
      ring
    rw [h2, hxy]
    exact Int.natAbs_ofNat p
  case _ => exact hnd
  case _ =>
    intro hdvd
    apply hnd
    have h2 := gi_star_dvd hdvd
    rwa [star_star] at h2

theorem split_dvd_of_dvd_norm (p : ℕ) (π : GaussianInt) (hπn : π.norm = (p : ℤ))
    (hπ : Prime π) (z : GaussianInt) (h : ((p : ℤ)) ∣ z.norm) :
    π ∣ z ∨ star π ∣ z := by
  obtain ⟨k, hk⟩ := h
  have hppi : ((p : ℕ) : GaussianInt) = π * star π := by
    have h0 := gi_norm_cast_eq_mul_conj π
    rw [hπn] at h0
    push_cast at h0
    exact h0
  have hdvd : π ∣ z * star z := by
    rw [← gi_norm_cast_eq_mul_conj, hk]
    push_cast
    rw [hppi]
    exact ⟨star π * (k : GaussianInt), by ring⟩
  rcases hπ.2.2 _ _ hdvd with hd | hd
  · exact Or.inl hd
  · right
    have h2 := gi_star_dvd hd
    rwa [star_star] at h2

theorem split_descent (p m : ℕ) (π : GaussianInt) (hπn : π.norm = (p : ℤ))
    (hπ : Prime π) (hppos : 0 < p) :
    ∀ a : ℕ, ∀ z : GaussianInt, z.norm = ((p ^ a * m : ℕ) : ℤ) →
      ∃ i : ℕ, i ≤ a ∧ ∃ w : GaussianInt,
        z = π ^ i * (star π) ^ (a - i) * w ∧ w.norm = (m : ℤ) := by
  intro a
  induction a with
  | zero =>
    intro z hz
    exact ⟨0, le_refl 0, z, by rw [pow_zero, pow_zero]; ring, by simpa using hz⟩
  | succ a ih =>
    intro z hz
    have hpdvd : ((p : ℤ)) ∣ z.norm := by
      rw [hz]
      push_cast
      exact ⟨(p : ℤ) ^ a * m, by ring⟩
    have hstarn : (star π).norm = (p : ℤ) := by rw [Zsqrtd.norm_conj, hπn]
    rcases split_dvd_of_dvd_norm p π hπn hπ z hpdvd with ⟨w', hw'⟩ | ⟨w', hw'⟩
    · have hn := congrArg Zsqrtd.norm hw'
      rw [Zsqrtd.norm_mul, hπn, hz] at hn
      have h3 : ((p ^ (a + 1) * m : ℕ) : ℤ) = (p : ℤ) * ((p ^ a * m : ℕ) : ℤ) := by
        push_cast
        ring
      rw [h3] at hn
      have hppos' : ((p : ℤ)) ≠ 0 := by exact_mod_cast hppos.ne'
      have hw'n : w'.norm = ((p ^ a * m : ℕ) : ℤ) := (mul_left_cancel₀ hppos' hn).symm
      obtain ⟨i, hi, w, hw, hwn⟩ := ih w' hw'n
      refine ⟨i + 1, by omega, w, ?_, hwn⟩
      rw [hw', hw]
      have h4 : a + 1 - (i + 1) = a - i := by omega
      rw [h4, pow_succ]
      ring
    · have hn := congrArg Zsqrtd.norm hw'
      rw [Zsqrtd.norm_mul, hstarn, hz] at hn
      have h3 : ((p ^ (a + 1) * m : ℕ) : ℤ) = (p : ℤ) * ((p ^ a * m : ℕ) : ℤ) := by
        push_cast
        ring
      rw [h3] at hn
      have hppos' : ((p : ℤ)) ≠ 0 := by exact_mod_cast hppos.ne'
      have hw'n : w'.norm = ((p ^ a * m : ℕ) : ℤ) := (mul_left_cancel₀ hppos' hn).symm
      obtain ⟨i, hi, w, hw, hwn⟩ := ih w' hw'n
      refine ⟨i, by omega, w, ?_, hwn⟩
      rw [hw', hw]
      have h4 : a + 1 - i = (a - i) + 1 := by omega
      rw [h4, pow_succ]
      ring

theorem aux_inj (q r w w' : GaussianInt) (a i j : ℕ) (hq : Prime q) (hqr : ¬ q ∣ r)
    (hqw : ¬ q ∣ w) (hij : i < j) (hj : j ≤ a)
    (heq : q ^ i * r ^ (a - i) * w = q ^ j * r ^ (a - j) * w') : False := by
  have hqz : q ≠ 0 := hq.ne_zero
  have hsplit : q ^ j = q ^ i * (q * q ^ (j - i - 1)) := by
    rw [← pow_succ']
    rw [← pow_add]
    congr 1
    omega
  rw [hsplit] at heq
  have heq2 : q ^ i * (r ^ (a - i) * w) =
      q ^ i * (q * (q ^ (j - i - 1) * r ^ (a - j) * w')) := by
    linear_combination heq
  have heq3 : r ^ (a - i) * w = q * (q ^ (j - i - 1) * r ^ (a - j) * w') :=
    mul_left_cancel₀ (pow_ne_zero i hqz) heq2
  have hdvd : q ∣ r ^ (a - i) * w := ⟨_, heq3⟩
  rcases hq.2.2 _ _ hdvd with hd | hd
  · exact hqr (hq.dvd_of_dvd_pow hd)
  · exact hqw hd

theorem split_count (p a m : ℕ) (hp : p.Prime) (h1 : p % 4 = 1) (hm : ¬ p ∣ m) :
    (gaussSet (p ^ a * m)).card = (a + 1) * (gaussSet m).card := by
  obtain ⟨π, hπn, hπ, hπs, hnd1, hnd2⟩ := split_pi p hp h1
  have hstarn : (star π).norm = (p : ℤ) := by rw [Zsqrtd.norm_conj, hπn]
  have hpz : ((p : ℤ)) ≠ 0 := by
    have := hp.pos
    omega
  have hdvd_w : ∀ w : GaussianInt, w ∈ gaussSet m → ¬ π ∣ w := by
    intro w hw hdvd
    rw [mem_gaussSet] at hw
    have h2 := gi_norm_dvd hdvd
    rw [hπn, hw] at h2
    have h3 : p ∣ m := by exact_mod_cast h2
    exact hm h3
  have hdvd_w' : ∀ w : GaussianInt, w ∈ gaussSet m → ¬ star π ∣ w := by
    intro w hw hdvd
    rw [mem_gaussSet] at hw
    have h2 := gi_norm_dvd hdvd
    rw [hstarn, hw] at h2
    have h3 : p ∣ m := by exact_mod_cast h2
    exact hm h3
  have hcard : ((Finset.range (a + 1)) ×ˢ gaussSet m).card = (a + 1) * (gaussSet m).card := by
    rw [Finset.card_product, Finset.card_range]
  rw [← hcard]
  symm
  apply Finset.card_bij (fun iw _ => π ^ iw.1 * (star π) ^ (a - iw.1) * iw.2)
  · intro iw hiw
    rw [Finset.mem_product, Finset.mem_range] at hiw
    obtain ⟨hi, hw⟩ := hiw
    rw [mem_gaussSet] at hw ⊢
    rw [Zsqrtd.norm_mul, Zsqrtd.norm_mul, gi_norm_pow, gi_norm_pow, hπn, hstarn, hw]
    rw [← pow_add]
    have h2 : iw.1 + (a - iw.1) = a := by omega
    rw [h2]
    push_cast
    ring
  · intro iw1 hiw1 iw2 hiw2 heq
    rw [Finset.mem_product, Finset.mem_range] at hiw1 hiw2
    obtain ⟨hi1, hw1⟩ := hiw1
    obtain ⟨hi2, hw2⟩ := hiw2
    have hieq : iw1.1 = iw2.1 := by
      rcases Nat.lt_trichotomy iw1.1 iw2.1 with h | h | h
      · exact absurd (aux_inj π (star π) iw1.2 iw2.2 a iw1.1 iw2.1 hπ hnd1
          (hdvd_w _ hw1) h (by omega) heq) (by simp)
      · exact h
      · exfalso
        have heqs : (star π) ^ (a - iw1.1) * π ^ (a - (a - iw1.1)) * iw1.2 =
            (star π) ^ (a - iw2.1) * π ^ (a - (a - iw2.1)) * iw2.2 := by
          rw [show a - (a - iw1.1) = iw1.1 by omega, show a - (a - iw2.1) = iw2.1 by omega]
          linear_combination heq
        exact aux_inj (star π) π iw1.2 iw2.2 a (a - iw1.1) (a - iw2.1) hπs hnd2
          (hdvd_w' _ hw1) (by omega) (by omega) heqs
    have hweq : iw1.2 = iw2.2 := by
      rw [hieq] at heq
      exact mul_left_cancel₀
        (mul_ne_zero (pow_ne_zero _ hπ.ne_zero) (pow_ne_zero _ hπs.ne_zero)) heq
    exact Prod.ext hieq hweq
  · intro z hz
    rw [mem_gaussSet] at hz
    obtain ⟨i, hi, w, hw, hwn⟩ := split_descent p m π hπn hπ hp.pos a z hz
    refine ⟨(i, w), ?_, hw.symm⟩
    rw [Finset.mem_product, Finset.mem_range]
    exact ⟨by omega, mem_gaussSet.mpr hwn⟩

theorem gauss_count : ∀ n : ℕ, 0 < n →
    ((gaussSet n).card : ℤ) =
      4 * ((ArithmeticFunction.zeta : ArithmeticFunction ℕ) * chi4 : ArithmeticFunction ℤ) n := by
  have hmul : ((ArithmeticFunction.zeta : ArithmeticFunction ℕ) * chi4 :
      ArithmeticFunction ℤ).IsMultiplicative :=
    ArithmeticFunction.IsMultiplicative.mul
      (ArithmeticFunction.isMultiplicative_zeta.natCast) chi4_mult
  intro n
  induction n using Nat.strong_induction_on with
  | _ n ih =>
    intro hn
    rcases Nat.lt_or_ge n 2 with h1 | h1
    · have hone : n = 1 := by omega
      rw [hone]
      rw [hmul.1]
      decide
    · have hn0 : n ≠ 0 := by omega
      have hne1 : n ≠ 1 := by omega

      have hp : n.minFac.Prime := Nat.minFac_prime hne1
      have hpdvd : n.minFac ∣ n := Nat.minFac_dvd n
      have ha : 0 < n.factorization n.minFac :=
        Nat.Prime.factorization_pos_of_dvd hp hn0 hpdvd
      have hself : n.minFac ^ n.factorization n.minFac * (n / n.minFac ^ n.factorization n.minFac) = n :=
        Nat.ord_proj_mul_ord_compl_eq_self n n.minFac
      have hm : ¬ n.minFac ∣ (n / n.minFac ^ n.factorization n.minFac) :=
        Nat.not_dvd_ord_compl hp hn0
      have hmpos : 0 < n / n.minFac ^ n.factorization n.minFac := Nat.ord_compl_pos n.minFac hn0
      have hmlt : n / n.minFac ^ n.factorization n.minFac < n := by
        have hpa : 2 ≤ n.minFac ^ n.factorization n.minFac := by
          calc 2 ≤ n.minFac := hp.two_le
            _ = n.minFac ^ 1 := (pow_one _).symm
            _ ≤ n.minFac ^ n.factorization n.minFac :=
              Nat.pow_le_pow_right (by have h9 := hp.two_le; omega) (by omega)
        exact Nat.div_lt_self (by omega) (by omega)
      have hcop : Nat.Coprime (n.minFac ^ n.factorization n.minFac)
          (n / n.minFac ^ n.factorization n.minFac) :=
        Nat.Coprime.pow_left _ ((Nat.Prime.coprime_iff_not_dvd hp).mpr hm)
      have hZ : ((ArithmeticFunction.zeta : ArithmeticFunction ℕ) * chi4 : ArithmeticFunction ℤ) n =
          ((ArithmeticFunction.zeta : ArithmeticFunction ℕ) * chi4 : ArithmeticFunction ℤ)
              (n.minFac ^ n.factorization n.minFac) *
            ((ArithmeticFunction.zeta : ArithmeticFunction ℕ) * chi4 : ArithmeticFunction ℤ)
              (n / n.minFac ^ n.factorization n.minFac) := by
        rw [← hmul.2 hcop, hself]
      have hIH := ih _ hmlt hmpos
      have hpow := zeta_chi4_prime_pow n.minFac (n.factorization n.minFac) hp
      have hcardn : (gaussSet n).card =
          (gaussSet (n.minFac ^ n.factorization n.minFac *
            (n / n.minFac ^ n.factorization n.minFac))).card := by rw [hself]
      rcases Nat.lt_or_ge n.minFac 3 with hsmall | hbig
      · have hp2 : n.minFac = 2 := by
          have := hp.two_le
          omega
        rw [hp2] at hZ hpow hcardn hIH
        have hcard : (gaussSet n).card = (gaussSet (n / 2 ^ n.factorization 2)).card := by
          rw [hcardn]
          exact peel_two _ _
        rw [hcard, hIH, hZ, hpow]
        norm_num
      · have hodd : n.minFac % 2 = 1 := by
          rcases hp.eq_two_or_odd with h | h
          · omega
          · exact h
        rcases Nat.lt_or_ge (n.minFac % 4) 2 with hc | hc
        · have h41 : n.minFac % 4 = 1 := by omega
          have hcard : (gaussSet n).card =
              (n.factorization n.minFac + 1) * (gaussSet (n / n.minFac ^ n.factorization n.minFac)).card := by
            rw [hcardn]
            exact split_count _ _ _ hp h41 hm
          rw [hcard, hZ, hpow, if_pos h41]
          push_cast
          rw [hIH]
          ring
        · have h43 : n.minFac % 4 = 3 := by omega
          rcases Nat.even_or_odd (n.factorization n.minFac) with heven | hoddx
          · obtain ⟨b, hb⟩ := heven
            have hb2 : n.factorization n.minFac = 2 * b := by omega
            have hcard : (gaussSet n).card =
                (gaussSet (n / n.minFac ^ n.factorization n.minFac)).card := by
              rw [hcardn, hb2]
              rw [hb2] at hm
              exact peel_inert_even _ _ _ hp h43 hm
            rw [hcard, hIH, hZ, hpow, if_neg (by omega), if_pos h43, if_pos (by omega)]
            ring
          · have hcard : (gaussSet n).card = 0 := by
              rw [hcardn]
              exact peel_inert_odd _ _ _ hp h43 hm (Nat.odd_iff.mp hoddx)
            rw [hcard, hZ, hpow, if_neg (by omega), if_pos h43,
              if_neg (by rw [Nat.odd_iff.mp hoddx]; omega)]
            push_cast
            ring

/-- C8: for every n ≥ 0, r_2(n) equals the classical signed/ordered
sum-of-two-squares counting function: the number of pairs (x, y) of integers
with x² + y² = n (Jacobi: for n ≥ 1 this count is 4·(d₁(n) − d₃(n)), proved
here by counting Gaussian integers of norm n, peeling one rational prime at a
time: ramified 2 and even powers of inert p ≡ 3 preserve the count, odd inert
powers kill it, and split p ≡ 1 with exponent a multiplies it by a + 1). -/
theorem c8_r2_classical (n : ℕ) :
    (∀ xy : ℤ × ℤ, xy ∈ sqPairs n ↔ xy.1 ^ 2 + xy.2 ^ 2 = (n : ℤ)) ∧
    r_2 n = ((sqPairs n).card : ℤ) := by
  refine ⟨fun xy => mem_sqPairs, ?_⟩
  rcases Nat.eq_zero_or_pos n with rfl | hn
  · decide
  · rw [r_2_eq_sum n (by omega), ← zeta_chi4_apply, ← gauss_count n hn]
    exact_mod_cast gaussSet_card n
